import Mathlib

/-!
Verification of the docx header/footer template-application core
(`app/docx_template_apply.py`).

The program is shallowly embedded: a zip package is a list of named byte
entries (bytes as `List Nat`), XML parts that the program parses and mutates
with ElementTree are modelled by the inductive `XML` tree, and each Python
function is translated into a Lean function of the same name.  String
predicates of Python (`startswith`, `endswith`, `lower`, `<`) are modelled
by structurally recursive functions over the character lists, which agree
with Python's code-point semantics.
-/

namespace Docx

/-- Python `s.startswith(p)`: `p`'s characters are a prefix of `s`'s. -/
def strStarts (s p : String) : Bool := p.data.isPrefixOf s.data

/-- Python `s.endswith(p)`: `p`'s characters are a suffix of `s`'s. -/
def strEnds (s p : String) : Bool := p.data.isSuffixOf s.data

/-- Python `s < t` on strings: lexicographic comparison by code point. -/
def charsLt : List Char → List Char → Bool
  | [], [] => false
  | [], _ :: _ => true
  | _ :: _, [] => false
  | a :: as, b :: bs => if a < b then true else if b < a then false else charsLt as bs

/-- Python string `<` lifted to `String`. -/
def strLt (a b : String) : Bool := charsLt a.data b.data

/-- Python `s.lower()` (ASCII range; the program only compares ASCII
file-name extensions). -/
def lowerStr (s : String) : String := ⟨s.data.map Char.toLower⟩

/-- Python `os.path.basename` for zip entry names (split on the `/`
separator used inside the archive). -/
def basename (n : String) : String := ((n.splitOn "/").getLastD n)

/-- Raw bytes of a zip entry. -/
abbrev Bytes := List Nat

/-- A zip package: the ordered list of its named entries, as
`zipfile.ZipFile` exposes them.  `namelist` preserves archive order. -/
structure Pkg where
  entries : List (String × Bytes)

/-- `ZipFile.namelist()`. -/
def namelist (p : Pkg) : List String := p.entries.map (fun e => e.1)

/-- `ZipFile.read(n)` / `ZipFile.open(n)`, as an `Option`: `zipfile`
resolves a name through `NameToInfo`, which maps each name to its last
entry, and raises `KeyError` when the name is absent. -/
def zread? (p : Pkg) (n : String) : Option Bytes :=
  (p.entries.reverse.find? (fun e => e.1 == n)).map (fun e => e.2)

/-- `ZipFile.read(n)` where the caller knows the entry exists (it came from
`namelist`). -/
def zreadD (p : Pkg) (n : String) : Bytes := (zread? p n).getD []

/-- `sorted(keys)[0]`: the least string of a nonempty list under Python's
lexicographic order. -/
def minString : List String → Option String
  | [] => none
  | n :: ns => some (ns.foldl (fun a b => if strLt b a then b else a) n)

/-! ### The XML tree model

`xml.etree.ElementTree` elements carry a namespace-qualified tag of the
form `{uri}local`, an attribute dictionary, and a list of children.  The
program's attribute dictionaries have unique keys; `get` looks a key up and
`set` replaces the value in place (or appends a fresh key at the end),
exactly as `setA` below does on the association list. -/

inductive XML where
  | elem (tag : String) (attrs : List (String × String)) (children : List XML)

def XML.tag : XML → String
  | .elem t _ _ => t

def XML.attrs : XML → List (String × String)
  | .elem _ a _ => a

def XML.children : XML → List XML
  | .elem _ _ c => c

/-- `Element.get(k)`. -/
def XML.get (x : XML) (k : String) : Option String :=
  (x.attrs.find? (fun a => a.1 == k)).map (fun a => a.2)

/-- `Element.get(k, d)`. -/
def XML.getAttrD (x : XML) (k d : String) : String := (x.get k).getD d

/-- Dictionary assignment on an association list: replace the first binding
of `k`, or append one. -/
def setA : List (String × String) → String → String → List (String × String)
  | [], k, v => [(k, v)]
  | (k0, v0) :: rest, k, v =>
    if k0 == k then (k0, v) :: rest else (k0, v0) :: setA rest k v

/-- `Element.set(k, v)`. -/
def XML.setAttr (x : XML) (k v : String) : XML :=
  .elem x.tag (setA x.attrs k v) x.children

/-! ### Namespace constants of the source file -/

def wNSuri : String := "http://schemas.openxmlformats.org/wordprocessingml/2006/main"
def rNSuri : String := "http://schemas.openxmlformats.org/officeDocument/2006/relationships"
def pkgRelNSuri : String := "http://schemas.openxmlformats.org/package/2006/relationships"
def pkgCtNSuri : String := "http://schemas.openxmlformats.org/package/2006/content-types"

def docTag : String := "\x7b" ++ wNSuri ++ "\x7ddocument"
def bodyTag : String := "\x7b" ++ wNSuri ++ "\x7dbody"
def sectTag : String := "\x7b" ++ wNSuri ++ "\x7dsectPr"
def hdrRefTag : String := "\x7b" ++ wNSuri ++ "\x7dheaderReference"
def ftrRefTag : String := "\x7b" ++ wNSuri ++ "\x7dfooterReference"
def wTypeAttr : String := "\x7b" ++ wNSuri ++ "\x7dtype"
def rIdAttr : String := "\x7b" ++ rNSuri ++ "\x7did"
def relationshipsTag : String := "\x7b" ++ pkgRelNSuri ++ "\x7dRelationships"
def relationshipTag : String := "\x7b" ++ pkgRelNSuri ++ "\x7dRelationship"
def typesTag : String := "\x7b" ++ pkgCtNSuri ++ "\x7dTypes"
def overrideTag : String := "\x7b" ++ pkgCtNSuri ++ "\x7dOverride"

def headerRelType : String := rNSuri ++ "/header"
def footerRelType : String := rNSuri ++ "/footer"
def headerContentType : String :=
  "application/vnd.openxmlformats-officedocument.wordprocessingml.header+xml"
def footerContentType : String :=
  "application/vnd.openxmlformats-officedocument.wordprocessingml.footer+xml"

/-! ### Part classification (`_replace_header_footer_parts`, lines 104-109) -/

/-- `is_header_footer_part`: full-name prefix check, as written in the
source (`n.startswith('word/header') or n.startswith('word/footer')`,
and `n.endswith('.xml')`). -/
def is_header_footer_part (n : String) : Bool :=
  (strStarts n "word/header" || strStarts n "word/footer") && strEnds n ".xml"

/-- `is_header_footer_rels` (lines 107-109). -/
def is_header_footer_rels (n : String) : Bool :=
  strStarts n "word/_rels/" &&
    (strStarts (basename n) "header" || strStarts (basename n) "footer") &&
    strEnds (basename n) ".rels"

/-! ### The source-entry loop (lines 98-128)

The loop walks `src_zip.namelist()` in order, buffers the bytes of the
three structural parts (a later duplicate name overwrites the buffer, as a
later Python assignment would), drops header/footer parts and their rels,
and copies everything else with `out_zip.writestr(n, src_zip.read(n))`. -/

structure Staged where
  out : List (String × Bytes)
  doc? : Option Bytes
  rels? : Option Bytes
  ct? : Option Bytes

def stageEntries (src : Pkg) : List String → Staged
  | [] => ⟨[], none, none, none⟩
  | n :: ns =>
    let rest := stageEntries src ns
    if n == "word/document.xml" then
      { rest with doc? := some (rest.doc?.getD (zreadD src n)) }
    else if n == "word/_rels/document.xml.rels" then
      { rest with rels? := some (rest.rels?.getD (zreadD src n)) }
    else if n == "[Content_Types].xml" then
      { rest with ct? := some (rest.ct?.getD (zreadD src n)) }
    else if is_header_footer_part n || is_header_footer_rels n then rest
    else { rest with out := (n, zreadD src n) :: rest.out }

def bufferPhase (src : Pkg) : Staged := stageEntries src (namelist src)

/-! ### Template part selection (`_collect_headers_footers_from_template`,
`_pick_first_part`) -/

/-- Names collected into the `headers` dict (the dict's keys; key order and
deduplication do not affect the later `sorted(keys)[0]` pick). -/
def collect_headers (tpl : Pkg) : List String :=
  (namelist tpl).filter (fun n => strStarts n "word/header" && strEnds n ".xml")

def collect_footers (tpl : Pkg) : List String :=
  (namelist tpl).filter (fun n => strStarts n "word/footer" && strEnds n ".xml")

/-- `_pick_first_part`: `sorted(parts.keys())[0]`, `None` when empty. -/
def pick_first_part (names : List String) : Option String := minString names

/-! ### Media copy (`_ensure_media_dependencies`, lines 78-84)

Walks the template's name list and writes each `word/media/` entry that is
not already among the names written to the output so far. -/

def mediaStep (tpl : Pkg) (acc : List (String × Bytes)) (n : String) :
    List (String × Bytes) :=
  if strStarts n "word/media/" && !(acc.any (fun e => e.1 == n)) then
    acc ++ [(n, zreadD tpl n)]
  else acc

def ensure_media_dependencies (tpl : Pkg) (out : List (String × Bytes)) :
    List (String × Bytes) :=
  (namelist tpl).foldl (mediaStep tpl) out

/-! ### Selected header/footer part writes (lines 139-163) -/

def headerWrites (tpl : Pkg) : List (String × Bytes) :=
  match pick_first_part (collect_headers tpl) with
  | none => []
  | some name =>
    ("word/header1.xml", zreadD tpl name) ::
      (if name == "" then []
       else
         match zread? tpl ("word/_rels/" ++ basename name ++ ".rels") with
         | some d => [("word/_rels/header1.xml.rels", d)]
         | none => [])

def footerWrites (tpl : Pkg) : List (String × Bytes) :=
  match pick_first_part (collect_footers tpl) with
  | none => []
  | some name =>
    ("word/footer1.xml", zreadD tpl name) ::
      (if name == "" then []
       else
         match zread? tpl ("word/_rels/" ++ basename name ++ ".rels") with
         | some d => [("word/_rels/footer1.xml.rels", d)]
         | none => [])

/-! ### Relationship manifest edit (lines 165-203) -/

/-- The `used_ids` set: `Id` attributes of `Relationship` children, a
falsy (empty) id being skipped by `if rid:`. -/
def usedIdsOf (root : XML) : List String :=
  root.children.filterMap
    (fun rel =>
      if strEnds rel.tag "Relationship" then
        match rel.get "Id" with
        | some rid => if rid == "" then none else some rid
        | none => none
      else none)

/-- The removal test of the loop at lines 173-180. -/
def isRemovedRel (rel : XML) : Bool :=
  strEnds rel.tag "Relationship" &&
    (strEnds (rel.getAttrD "Type" "") "/header" || strEnds (rel.getAttrD "Type" "") "/footer")

def keptRels (root : XML) : List XML :=
  root.children.filter (fun rel => !(isRemovedRel rel))

def ridCand (i : Nat) : String := "rId" ++ Nat.repr i

/-- The candidate scan of `new_rid`.  The Python loop runs until a free
candidate appears; `used.length + 1` trial steps always suffice (proved in
`new_rid_not_mem`), so the fuelled recursion computes the same id: the
first `rId<i>`, `i >= 9001`, not in `used`. -/
def newRidGo (used : List String) : Nat → Nat → String
  | 0, i => ridCand i
  | fuel + 1, i => if used.contains (ridCand i) then newRidGo used fuel (i + 1) else ridCand i

def new_rid (used : List String) : String := newRidGo used (used.length + 1) 9001

/-- A freshly appended `Relationship` element (lines 191-203): `SubElement`
then `set('Id')`, `set('Type')`, `set('Target')`. -/
def relationshipElem (rid ty target : String) : XML :=
  .elem relationshipTag [("Id", rid), ("Type", ty), ("Target", target)] []

/-! ### Section-properties edit (lines 205-233) -/

def headerReferenceElem (rid : String) : XML :=
  .elem hdrRefTag [(wTypeAttr, "default"), (rIdAttr, rid)] []

def footerReferenceElem (rid : String) : XML :=
  .elem ftrRefTag [(wTypeAttr, "default"), (rIdAttr, rid)] []

def isRefTag (t : String) : Bool := t == hdrRefTag || t == ftrRefTag

/-- The per-section edit (lines 221-233): remove every header/footer
reference child, then append the new default references. -/
def editSect (hid? fid? : Option String) : XML → XML
  | .elem t a cs =>
    .elem t a
      ((cs.filter (fun c => !(isRefTag c.tag))) ++
        (match hid? with | some i => [headerReferenceElem i] | none => []) ++
        (match fid? with | some i => [footerReferenceElem i] | none => []))

/-- Apply `editSect` to every descendant `w:sectPr` node, as the mutation
of every element of `body.findall('.//w:sectPr')` does. -/
def updSect (hid? fid? : Option String) : XML → XML
  | .elem t a cs =>
    let cs2 := cs.attach.map (fun c => updSect hid? fid? c.1)
    if t == sectTag then editSect hid? fid? (.elem t a cs2) else .elem t a cs2
decreasing_by
  simp only [XML.elem.sizeOf_spec]
  have := List.sizeOf_lt_of_mem c.2
  omega

/-- `node.findall('.//w:sectPr')`: descendant elements with the `w:sectPr`
tag, in document order, the node itself excluded. -/
def descSect : XML → List XML
  | .elem _ _ cs =>
    cs.attach.flatMap (fun c => (if c.1.tag == sectTag then [c.1] else []) ++ descSect c.1)
decreasing_by
  simp only [XML.elem.sizeOf_spec]
  have := List.sizeOf_lt_of_mem c.2
  omega

/-- Lines 217-233 relative to the found (or created) body element. -/
def updateBody (hid? fid? : Option String) (body : XML) : XML :=
  if (descSect body).isEmpty then
    .elem body.tag body.attrs (body.children ++ [editSect hid? fid? (.elem sectTag [] [])])
  else
    .elem body.tag body.attrs (body.children.map (updSect hid? fid?))

/-- `root.find(tag)`: first direct child with the tag. -/
def findFirstWith (t : String) : List XML → Option XML
  | [] => none
  | c :: cs => if c.tag == t then some c else findFirstWith t cs

/-- Replace the first direct child with the tag (in-place mutation of the
found child). -/
def mapFirstWith (t : String) (f : XML → XML) : List XML → List XML
  | [] => []
  | c :: cs => if c.tag == t then f c :: cs else c :: mapFirstWith t f cs

/-- Lines 214-233: find `w:body` (appending an empty one when absent) and
rewrite its section blocks. -/
def updateDoc (hid? fid? : Option String) (doc : XML) : XML :=
  match findFirstWith bodyTag doc.children with
  | some _ => .elem doc.tag doc.attrs (mapFirstWith bodyTag (updateBody hid? fid?) doc.children)
  | none => .elem doc.tag doc.attrs (doc.children ++ [updateBody hid? fid? (.elem bodyTag [] [])])

/-- The minimal document synthesized when `word/document.xml` is absent
(lines 208-212). -/
def defaultDoc : XML :=
  .elem docTag [] [.elem bodyTag [] [.elem sectTag [] []]]

/-! ### Content-type registry edit (`ensure_override`, lines 235-254) -/

def matchesOverride (pn : String) (c : XML) : Bool :=
  c.tag == overrideTag && c.get "PartName" == some pn

def overrideElem (pn ct : String) : XML :=
  .elem overrideTag [("PartName", pn), ("ContentType", ct)] []

/-- Update the first matching Override in place; `none` when no Override
has this `PartName`. -/
def setFirstOverride (pn ct : String) : List XML → Option (List XML)
  | [] => none
  | c :: cs =>
    if matchesOverride pn c then some (c.setAttr "ContentType" ct :: cs)
    else (setFirstOverride pn ct cs).map (fun cs2 => c :: cs2)

def ensure_override (root : XML) (pn ct : String) : XML :=
  match setFirstOverride pn ct root.children with
  | some cs => .elem root.tag root.attrs cs
  | none => .elem root.tag root.attrs (root.children ++ [overrideElem pn ct])

/-! ### The structural transform (lines 165-259 on the parsed trees)

`doc? / rels? / ct?` are the parse results of the buffered bytes (absent
when the source package lacked that part); `hasH / hasF` record whether the
template provided a header resp. footer part. -/

structure Edited where
  doc : XML
  rels : XML
  ct : XML
  hid? : Option String
  fid? : Option String

def rels0Of (rels? : Option XML) : XML := rels?.getD (.elem relationshipsTag [] [])

/-- The header relationship id allocated at line 192 (`None` when the
template has no header part). -/
def hidOf (rels? : Option XML) (hasH : Bool) : Option String :=
  if hasH then some (new_rid (usedIdsOf (rels0Of rels?))) else none

/-- The `used_ids` set after the header allocation (the closure marks the
fresh id as used). -/
def usedAfterHeader (rels? : Option XML) (hasH : Bool) : List String :=
  match hidOf rels? hasH with
  | some i => i :: usedIdsOf (rels0Of rels?)
  | none => usedIdsOf (rels0Of rels?)

/-- The footer relationship id allocated at line 199. -/
def fidOf (rels? : Option XML) (hasH hasF : Bool) : Option String :=
  if hasF then some (new_rid (usedAfterHeader rels? hasH)) else none

/-- The edited relationship manifest: header/footer relationships removed,
fresh ones appended. -/
def newRelsOf (rels? : Option XML) (hasH hasF : Bool) : XML :=
  .elem (rels0Of rels?).tag (rels0Of rels?).attrs
    (keptRels (rels0Of rels?) ++
      (match hidOf rels? hasH with
       | some i => [relationshipElem i headerRelType "header1.xml"]
       | none => []) ++
      (match fidOf rels? hasH hasF with
       | some i => [relationshipElem i footerRelType "footer1.xml"]
       | none => []))

/-- The edited content-type registry (lines 236-254). -/
def newCtOf (ct? : Option XML) (hasH hasF : Bool) : XML :=
  let ct0 := ct?.getD (.elem typesTag [] [])
  let ct1 := if hasH then ensure_override ct0 "/word/header1.xml" headerContentType else ct0
  if hasF then ensure_override ct1 "/word/footer1.xml" footerContentType else ct1

def transformStruct (doc? rels? ct? : Option XML) (hasH hasF : Bool) : Edited :=
  ⟨updateDoc (hidOf rels? hasH) (fidOf rels? hasH hasF) (doc?.getD defaultDoc),
   newRelsOf rels? hasH hasF,
   newCtOf ct? hasH hasF,
   hidOf rels? hasH,
   fidOf rels? hasH hasF⟩

/-! ### Whole-transform composition (`_replace_header_footer_parts`)

`parse` stands for `ET.fromstring` on the buffered structural bytes and
`ser` for `ET.tostring` on the edited trees; both are parameters of the
embedding since the byte-level XML codec is outside the model.  Entries are
listed in the order the program writes them. -/

def rawEntries (src tpl : Pkg) : List (String × Bytes) :=
  ensure_media_dependencies tpl (bufferPhase src).out ++ headerWrites tpl ++ footerWrites tpl

def transformOf (src tpl : Pkg) (parse : Bytes → XML) : Edited :=
  let st := bufferPhase src
  transformStruct (st.doc?.map parse) (st.rels?.map parse) (st.ct?.map parse)
    (pick_first_part (collect_headers tpl)).isSome
    (pick_first_part (collect_footers tpl)).isSome

def outputEntries (src tpl : Pkg) (parse : Bytes → XML) (ser : XML → Bytes) :
    List (String × Bytes) :=
  rawEntries src tpl ++
    [("[Content_Types].xml", ser (transformOf src tpl parse).ct),
     ("word/_rels/document.xml.rels", ser (transformOf src tpl parse).rels),
     ("word/document.xml", ser (transformOf src tpl parse).doc)]

def outputPkg (src tpl : Pkg) (parse : Bytes → XML) (ser : XML → Bytes) : Pkg :=
  ⟨outputEntries src tpl parse ser⟩

/-! ### The orchestrator (`apply_template_to_docx`, lines 262-285)

The call is modelled over an explicit file-system state.  `unzip` stands
for opening a file's bytes as a zip container (`None` = `BadZipFile`),
`emit` for running `_replace_header_footer_parts` and sealing the archive
(`None` = any exception raised inside the pipeline).  `tmp_out` is the path
`tempfile.mkstemp` returns — a fresh path, created empty at once.  The
final `shutil.move` is modelled as the atomic publish it is contracted to
be (remove the temp entry, bind the destination).  `opened` records which
input files were opened for reading. -/

structure FS where
  files : List (String × Bytes)

def FS.lookup (fs : FS) (p : String) : Option Bytes :=
  (fs.files.find? (fun e => e.1 == p)).map (fun e => e.2)

def FS.setFile (fs : FS) (p : String) (b : Bytes) : FS :=
  ⟨(p, b) :: fs.files.filter (fun e => !(e.1 == p))⟩

def FS.removeFile (fs : FS) (p : String) : FS :=
  ⟨fs.files.filter (fun e => !(e.1 == p))⟩

inductive TError where
  | unsupportedFormat
  | notFound
  | notAContainer
  | pipelineFailure

structure CallResult where
  err? : Option TError
  opened : List String
  fs : FS

def apply_template_to_docx (unzip : Bytes → Option Pkg) (emit : Pkg → Pkg → Option Bytes)
    (fs : FS) (src_path tpl_path dst_path tmp_out : String) : CallResult :=
  if !(strEnds (lowerStr src_path) ".docx" && strEnds (lowerStr tpl_path) ".docx") then
    ⟨some .unsupportedFormat, [], fs⟩
  else
    let fs1 := fs.setFile tmp_out []
    match fs1.lookup src_path with
    | none => ⟨some .notFound, [src_path], fs1.removeFile tmp_out⟩
    | some sb =>
      match unzip sb with
      | none => ⟨some .notAContainer, [src_path], fs1.removeFile tmp_out⟩
      | some srcPkg =>
        match fs1.lookup tpl_path with
        | none => ⟨some .notFound, [src_path, tpl_path], fs1.removeFile tmp_out⟩
        | some tb =>
          match unzip tb with
          | none => ⟨some .notAContainer, [src_path, tpl_path], fs1.removeFile tmp_out⟩
          | some tplPkg =>
            match emit srcPkg tplPkg with
            | none => ⟨some .pipelineFailure, [src_path, tpl_path], fs1.removeFile tmp_out⟩
            | some outBytes =>
              ⟨none, [src_path, tpl_path],
                ((fs1.setFile tmp_out outBytes).removeFile tmp_out).setFile dst_path outBytes⟩

/-! ### Decimal-numeral facts used by the id allocator

`Nat.repr` is injective; this is proved by evaluating the digit string
back to the number it denotes. -/

def decDigitVal (c : Char) : Nat := c.toNat - 48

def evalDigits (a : Nat) (l : List Char) : Nat :=
  l.foldl (fun x c => x * 10 + decDigitVal c) a

def decLen (n : Nat) : Nat :=
  if n < 10 then 1 else decLen (n / 10) + 1
decreasing_by
  exact Nat.div_lt_self (by omega) (by omega)

/-! ### Statement vocabulary

Notions the claims quantify over, defined on the output structures. -/

/-- The `Id` attributes borne by `Relationship` children of a relationship
manifest. -/
def manifestIds (root : XML) : List String :=
  (root.children.filter (fun c => strEnds c.tag "Relationship")).filterMap
    (fun c => c.get "Id")

/-- Header references of a section-properties block (its direct
`w:headerReference` children). -/
def headerRefsOf (blk : XML) : List XML :=
  blk.children.filter (fun c => c.tag == hdrRefTag)

def footerRefsOf (blk : XML) : List XML :=
  blk.children.filter (fun c => c.tag == ftrRefTag)

/-- The section-properties blocks of a document tree: the descendant
`w:sectPr` elements of its body (the first `w:body` child, which is where
the program rewrites them and where WordprocessingML places them). -/
def docBlocks (doc : XML) : List XML :=
  match findFirstWith bodyTag doc.children with
  | some b => descSect b
  | none => []

/-- Number of Override children declaring the given part name. -/
def countOverride (root : XML) (pn : String) : Nat :=
  root.children.countP (fun c => matchesOverride pn c)

/-- C10's preservation relation: a registry child may only change by a
`ContentType` attribute update; tag and `PartName` never change. -/
def ctPres (a b : XML) : Prop :=
  b.tag = a.tag ∧ b.get "PartName" = a.get "PartName" ∧
    (b = a ∨ ∃ v, b = a.setAttr "ContentType" v)

/-! ## Lemmas about the lexicographic order -/

theorem charsLt_irrefl : ∀ l, charsLt l l = false
  | [] => rfl
  | a :: as => by
    simp only [charsLt, lt_irrefl a, if_false]
    exact charsLt_irrefl as

theorem charsLt_trans : ∀ a b c, charsLt a b = true → charsLt b c = true → charsLt a c = true
  | [], [], _ :: _, _, _ => rfl
  | [], _ :: _, _ :: _, _, _ => rfl
  | a :: as, b :: bs, c :: cs, h1, h2 => by
    simp only [charsLt] at h1 h2 ⊢
    by_cases hab : a < b
    · simp only [hab, if_true] at h1
      by_cases hbc : b < c
      · have hac : a < c := lt_trans hab hbc
        simp [hac]
      · simp only [hbc, if_false] at h2
        by_cases hcb : c < b
        · simp [hcb] at h2
        · have : b = c := le_antisymm (not_lt.mp hcb) (not_lt.mp hbc)
          subst this
          simp [hab]
    · simp only [hab, if_false] at h1
      by_cases hba : b < a
      · simp [hba] at h1
      · have hEq : a = b := le_antisymm (not_lt.mp hba) (not_lt.mp hab)
        subst hEq
        simp only [lt_irrefl a, if_false] at h1
        by_cases hac : a < c
        · simp [hac]
        · simp only [hac, if_false] at h2 ⊢
          by_cases hca : c < a
          · simp [hca] at h2
          · simp only [hca, if_false] at h2 ⊢
            exact charsLt_trans as bs cs h1 h2

theorem charsLt_eq_of_not : ∀ a b, charsLt a b = false → charsLt b a = false → a = b
  | [], [], _, _ => rfl
  | [], _ :: _, h1, _ => by simp [charsLt] at h1
  | _ :: _, [], _, h2 => by simp [charsLt] at h2
  | a :: as, b :: bs, h1, h2 => by
    simp only [charsLt] at h1 h2
    by_cases hab : a < b
    · simp [hab] at h1
    · by_cases hba : b < a
      · simp [hba] at h2
      · have hEq : a = b := le_antisymm (not_lt.mp hba) (not_lt.mp hab)
        subst hEq
        simp only [lt_irrefl a, if_false] at h1 h2
        exact congrArg (a :: ·) (charsLt_eq_of_not as bs h1 h2)

theorem strLt_irrefl (s : String) : strLt s s = false := charsLt_irrefl s.data

theorem strLt_trans {a b c : String} (h1 : strLt a b = true) (h2 : strLt b c = true) :
    strLt a c = true := charsLt_trans a.data b.data c.data h1 h2

theorem strLt_eq_of_not {a b : String} (h1 : strLt a b = false) (h2 : strLt b a = false) :
    a = b := by
  have h := charsLt_eq_of_not a.data b.data h1 h2
  cases a
  cases b
  exact congrArg String.mk h

theorem minString_fold_mem : ∀ (ns : List String) (a : String),
    ns.foldl (fun a b => if strLt b a then b else a) a = a ∨
      ns.foldl (fun a b => if strLt b a then b else a) a ∈ ns := by
  intro ns
  induction ns with
  | nil => intro a; exact Or.inl rfl
  | cons b bs ih =>
    intro a
    simp only [List.foldl_cons]
    rcases ih (if strLt b a then b else a) with h | h
    · rw [h]
      by_cases hba : strLt b a = true
      · simp only [hba, if_true]
        exact Or.inr (List.mem_cons_self b bs)
      · simp only [Bool.not_eq_true] at hba
        simp [hba]
    · exact Or.inr (List.mem_cons_of_mem b h)

theorem strLt_total (x y : String) :
    strLt x y = true ∨ strLt y x = true ∨ x = y := by
  by_cases h1 : strLt x y = true
  · exact Or.inl h1
  · by_cases h2 : strLt y x = true
    · exact Or.inr (Or.inl h2)
    · exact Or.inr (Or.inr (strLt_eq_of_not (by simpa using h1) (by simpa using h2)))

/-- Whatever loses a comparison against the running minimum stays at least
as large as the final minimum. -/
theorem strLt_false_of_lt_of_not_lt {x m r : String}
    (hxm : strLt m x = true) (hmr : strLt m r = false) : strLt x r = false := by
  by_cases hxr : strLt x r = true
  · exfalso
    rcases strLt_total r m with h1 | h2 | h3
    · have hxm2 : strLt x m = true := strLt_trans hxr h1
      have : strLt x x = true := strLt_trans hxm2 hxm
      simp [strLt_irrefl] at this
    · simp [h2] at hmr
    · rw [h3] at hxr
      have : strLt x x = true := strLt_trans hxr hxm
      simp [strLt_irrefl] at this
  · simpa using hxr

theorem minString_fold_min : ∀ (ns : List String) (a k : String), (k = a ∨ k ∈ ns) →
    strLt k (ns.foldl (fun a b => if strLt b a then b else a) a) = false := by
  intro ns
  induction ns with
  | nil =>
    intro a k hk
    rcases hk with rfl | h
    · exact strLt_irrefl k
    · simp at h
  | cons b bs ih =>
    intro a k hk
    simp only [List.foldl_cons]
    by_cases hba : strLt b a = true
    · simp only [hba, if_true]
      have hbr := ih b b (Or.inl rfl)
      rcases hk with rfl | hk2
      · exact strLt_false_of_lt_of_not_lt hba hbr
      · rcases List.mem_cons.mp hk2 with rfl | hmem
        · exact hbr
        · exact ih b k (Or.inr hmem)
    · simp only [hba, if_false]
      have har := ih a a (Or.inl rfl)
      rcases hk with rfl | hk2
      · exact har
      · rcases List.mem_cons.mp hk2 with rfl | hmem
        · rcases strLt_total a k with h1 | h2 | h3
          · exact strLt_false_of_lt_of_not_lt h1 har
          · simp [h2] at hba
          · exact h3 ▸ har
        · exact ih a k (Or.inr hmem)

/-- `_pick_first_part` returns a member that is minimal for the Python
string order. -/
theorem pick_first_part_spec {names : List String} {m : String}
    (h : pick_first_part names = some m) :
    m ∈ names ∧ ∀ k ∈ names, strLt k m = false := by
  cases names with
  | nil => simp [pick_first_part, minString] at h
  | cons n ns =>
    simp only [pick_first_part, minString, Option.some.injEq] at h
    subst h
    constructor
    · rcases minString_fold_mem ns n with h | h
      · rw [h]; exact List.mem_cons_self n ns
      · exact List.mem_cons_of_mem n h
    · intro k hk
      rcases List.mem_cons.mp hk with hkn | hmem
      · rw [hkn]
        exact minString_fold_min ns _ _ (Or.inl rfl)
      · exact minString_fold_min ns _ _ (Or.inr hmem)

/-! ## Injectivity of the decimal numeral, and the id allocator -/

theorem decLen_eq_one {n : Nat} (h : n < 10) : decLen n = 1 := by
  rw [decLen]
  simp [h]

theorem decLen_eq_succ {n : Nat} (h : ¬ n < 10) : decLen n = decLen (n / 10) + 1 := by
  conv_lhs => rw [decLen]
  simp [h]

theorem decDigitVal_digitChar : ∀ d, d < 10 → decDigitVal (Nat.digitChar d) = d := by decide

theorem evalDigits_toDigitsCore :
    ∀ (f : Nat), ∀ (n a : Nat) (acc : List Char), n < f →
      evalDigits a (Nat.toDigitsCore 10 f n acc) = evalDigits (a * 10 ^ decLen n + n) acc := by
  intro f
  induction f with
  | zero => intro n a acc h; exact absurd h (Nat.not_lt_zero n)
  | succ f ih =>
    intro n a acc h
    rw [show Nat.toDigitsCore 10 (f + 1) n acc =
        (if n / 10 = 0 then Nat.digitChar (n % 10) :: acc
         else Nat.toDigitsCore 10 f (n / 10) (Nat.digitChar (n % 10) :: acc)) from by
      simp [Nat.toDigitsCore]]
    by_cases h10 : n / 10 = 0
    · simp only [h10, if_true]
      have hn : n < 10 := by omega
      have step : evalDigits a (Nat.digitChar (n % 10) :: acc) =
          evalDigits (a * 10 + decDigitVal (Nat.digitChar (n % 10))) acc := rfl
      rw [step, decDigitVal_digitChar (n % 10) (by omega), decLen_eq_one hn]
      have : n % 10 = n := Nat.mod_eq_of_lt hn
      rw [this, pow_one]
    · simp only [h10, if_false]
      have hlt : n / 10 < f := by omega
      rw [ih (n / 10) a (Nat.digitChar (n % 10) :: acc) hlt]
      have step : evalDigits (a * 10 ^ decLen (n / 10) + n / 10) (Nat.digitChar (n % 10) :: acc) =
          evalDigits ((a * 10 ^ decLen (n / 10) + n / 10) * 10 +
            decDigitVal (Nat.digitChar (n % 10))) acc := rfl
      rw [step, decDigitVal_digitChar (n % 10) (by omega),
        decLen_eq_succ (show ¬ n < 10 by omega)]
      congr 1
      have hdm : n / 10 * 10 + n % 10 = n := by omega
      calc (a * 10 ^ decLen (n / 10) + n / 10) * 10 + n % 10
          = a * (10 ^ decLen (n / 10) * 10) + (n / 10 * 10 + n % 10) := by ring
        _ = a * 10 ^ (decLen (n / 10) + 1) + n := by rw [hdm, pow_succ]

theorem evalDigits_repr (n : Nat) : evalDigits 0 (Nat.repr n).data = n := by
  have h0 : (Nat.repr n).data = Nat.toDigitsCore 10 (n + 1) n [] := rfl
  rw [h0, evalDigits_toDigitsCore (n + 1) n 0 [] (Nat.lt_succ_self n)]
  simp [evalDigits]

theorem repr_inj_nat {i j : Nat} (h : Nat.repr i = Nat.repr j) : i = j := by
  have h2 := congrArg (fun s => evalDigits 0 s.data) h
  simpa [evalDigits_repr] using h2

theorem ridCand_inj {i j : Nat} (h : ridCand i = ridCand j) : i = j := by
  apply repr_inj_nat
  have hd : "rId".data ++ (Nat.repr i).data = "rId".data ++ (Nat.repr j).data :=
    congrArg String.data h
  have h2 := List.append_cancel_left hd
  cases hi : Nat.repr i
  cases hj : Nat.repr j
  rw [hi, hj] at h2
  simp only at h2
  exact congrArg String.mk h2

theorem newRidGo_form : ∀ (fuel i : Nat) (used : List String),
    ∃ n, i ≤ n ∧ newRidGo used fuel i = ridCand n := by
  intro fuel
  induction fuel with
  | zero => intro i used; exact ⟨i, le_refl i, rfl⟩
  | succ fuel ih =>
    intro i used
    rw [newRidGo]
    by_cases h : used.contains (ridCand i)
    · simp only [h, if_true]
      obtain ⟨n, hn, he⟩ := ih (i + 1) used
      exact ⟨n, by omega, he⟩
    · simp only [h, if_false]
      exact ⟨i, le_refl i, rfl⟩

theorem newRidGo_not_mem : ∀ (fuel i : Nat) (used : List String),
    (∃ j, i ≤ j ∧ j < i + fuel ∧ ridCand j ∉ used) →
    newRidGo used fuel i ∉ used := by
  intro fuel
  induction fuel with
  | zero =>
    intro i used h
    obtain ⟨j, h1, h2, _⟩ := h
    omega
  | succ fuel ih =>
    intro i used h
    rw [newRidGo]
    by_cases hc : used.contains (ridCand i)
    · simp only [hc, if_true]
      obtain ⟨j, h1, h2, h3⟩ := h
      have hji : j ≠ i := by
        intro hji
        subst hji
        exact h3 (List.elem_iff.mp hc)
      exact ih (i + 1) used ⟨j, by omega, by omega, h3⟩
    · simp only [hc, if_false]
      intro hmem
      exact hc (List.elem_iff.mpr hmem)

theorem exists_fresh (used : List String) (i : Nat) :
    ∃ j, i ≤ j ∧ j < i + (used.length + 1) ∧ ridCand j ∉ used := by
  by_contra hc
  push_neg at hc
  have hsub : (List.range (used.length + 1)).map (fun k => ridCand (i + k)) ⊆ used := by
    intro s hs
    rw [List.mem_map] at hs
    obtain ⟨k, hk, rfl⟩ := hs
    rw [List.mem_range] at hk
    exact hc (i + k) (Nat.le_add_right i k) (by omega)
  have hnd : ((List.range (used.length + 1)).map (fun k => ridCand (i + k))).Nodup := by
    refine List.Nodup.map ?_ (List.nodup_range _)
    intro a b hab
    have := ridCand_inj hab
    omega
  have hle := (List.subperm_of_subset hnd hsub).length_le
  simp at hle

/-- `new_rid` never returns an id in the used set (the Python loop's exit
condition). -/
theorem new_rid_not_mem (used : List String) : new_rid used ∉ used :=
  newRidGo_not_mem (used.length + 1) 9001 used (exists_fresh used 9001)

/-- `new_rid` returns `rId<n>` for some `n ≥ 9001`. -/
theorem new_rid_form (used : List String) : ∃ n, 9001 ≤ n ∧ new_rid used = ridCand n :=
  newRidGo_form (used.length + 1) 9001 used

/-! ## Equation lemmas and structure of the section-block rewrite -/

theorem descSect_elem (t : String) (a : List (String × String)) (cs : List XML) :
    descSect (.elem t a cs) =
      cs.flatMap (fun c => (if c.tag == sectTag then [c] else []) ++ descSect c) := by
  rw [descSect]
  rw [List.flatMap, List.flatMap,
    List.attach_map_val cs (fun c => (if c.tag == sectTag then [c] else []) ++ descSect c)]

theorem updSect_elem (hid? fid? : Option String) (t : String) (a : List (String × String))
    (cs : List XML) :
    updSect hid? fid? (.elem t a cs) =
      (if t == sectTag then editSect hid? fid? (.elem t a (cs.map (updSect hid? fid?)))
       else .elem t a (cs.map (updSect hid? fid?))) := by
  rw [updSect]
  rw [List.attach_map_val cs (updSect hid? fid?)]

theorem descSect_leaf (t : String) (a : List (String × String)) :
    descSect (.elem t a []) = [] := by
  rw [descSect_elem]
  rfl

theorem editSect_elem (hid? fid? : Option String) (t : String) (a : List (String × String))
    (cs : List XML) :
    editSect hid? fid? (.elem t a cs) =
      .elem t a ((cs.filter (fun c => !(isRefTag c.tag))) ++
        (match hid? with | some i => [headerReferenceElem i] | none => []) ++
        (match fid? with | some i => [footerReferenceElem i] | none => [])) := rfl

theorem editSect_tag (hid? fid? : Option String) (x : XML) :
    (editSect hid? fid? x).tag = x.tag := by
  cases x
  rfl

theorem updSect_tag (hid? fid? : Option String) (x : XML) :
    (updSect hid? fid? x).tag = x.tag := by
  cases x with
  | elem t a cs =>
    rw [updSect_elem]
    by_cases h : (t == sectTag) = true
    · rw [if_pos h, editSect_tag]
      rfl
    · rw [if_neg (by simpa using h)]
      rfl

theorem sizeOf_child_le {c : XML} {t : String} {a : List (String × String)} {cs : List XML}
    {n : Nat} (hc : c ∈ cs) (hx : sizeOf (XML.elem t a cs) ≤ n + 1) : sizeOf c ≤ n := by
  have h1 := List.sizeOf_lt_of_mem hc
  simp only [XML.elem.sizeOf_spec] at hx
  omega

theorem hdrRef_not_sect : (hdrRefTag == sectTag) = false := by decide

theorem ftrRef_not_sect : (ftrRefTag == sectTag) = false := by decide

/-- Every section block inside an `updSect`-rewritten subtree is an
`editSect`-image of a `w:sectPr` element. -/
theorem descSect_updSect_aux (hid? fid? : Option String) :
    ∀ (n : Nat) (x : XML), sizeOf x ≤ n →
      ∀ b ∈ descSect (updSect hid? fid? x),
        ∃ a cs, b = editSect hid? fid? (.elem sectTag a cs) := by
  intro n
  induction n with
  | zero =>
    intro x hx
    cases x with
    | elem t a cs => simp [XML.elem.sizeOf_spec] at hx
  | succ n ih =>
    intro x hx b hb
    cases x with
    | elem t a cs =>
      have key : ∀ c ∈ cs.map (updSect hid? fid?),
          ((c.tag == sectTag) = true →
            ∃ a2 cs2, c = editSect hid? fid? (.elem sectTag a2 cs2)) ∧
          ∀ b2 ∈ descSect c, ∃ a2 cs2, b2 = editSect hid? fid? (.elem sectTag a2 cs2) := by
        intro c hc
        rw [List.mem_map] at hc
        obtain ⟨c0, hc0, rfl⟩ := hc
        have hsz : sizeOf c0 ≤ n := sizeOf_child_le hc0 hx
        refine ⟨?_, fun b2 hb2 => ih c0 hsz b2 hb2⟩
        intro htag
        cases c0 with
        | elem t0 a0 cs0 =>
          have ht0 : t0 = sectTag := by
            have h1 := updSect_tag hid? fid? (.elem t0 a0 cs0)
            rw [h1] at htag
            exact beq_iff_eq.mp htag
          subst ht0
          refine ⟨a0, cs0.map (updSect hid? fid?), ?_⟩
          rw [updSect_elem]
          simp
      have main : ∀ c ∈ cs.map (updSect hid? fid?),
          ∀ b2 ∈ (if c.tag == sectTag then [c] else []) ++ descSect c,
            ∃ a2 cs2, b2 = editSect hid? fid? (.elem sectTag a2 cs2) := by
        intro c hc b2 hb2
        rcases List.mem_append.mp hb2 with h1 | h2
        · by_cases htag : (c.tag == sectTag) = true
          · rw [if_pos htag] at h1
            rw [List.mem_singleton] at h1
            rw [h1]
            exact (key c hc).1 htag
          · rw [if_neg (by simpa using htag)] at h1
            simp at h1
        · exact (key c hc).2 b2 h2
      rw [updSect_elem] at hb
      by_cases ht : (t == sectTag) = true
      · rw [if_pos ht] at hb
        rw [editSect_elem] at hb
        rw [descSect_elem] at hb
        rw [List.mem_flatMap] at hb
        obtain ⟨c, hc, hbc⟩ := hb
        rcases List.mem_append.mp hc with hcl | hcr
        · rcases List.mem_append.mp hcl with hcf | hch
          · exact main c (List.mem_of_mem_filter hcf) _ hbc
          · cases hid? with
            | none => simp at hch
            | some i =>
              rw [List.mem_singleton] at hch
              subst hch
              rw [show (headerReferenceElem i).tag = hdrRefTag from rfl, hdrRef_not_sect] at hbc
              rw [show (headerReferenceElem i) = XML.elem hdrRefTag
                [(wTypeAttr, "default"), (rIdAttr, i)] [] from rfl] at hbc
              rw [descSect_leaf] at hbc
              simp at hbc
        · cases fid? with
          | none => simp at hcr
          | some i =>
            rw [List.mem_singleton] at hcr
            subst hcr
            rw [show (footerReferenceElem i).tag = ftrRefTag from rfl, ftrRef_not_sect] at hbc
            rw [show (footerReferenceElem i) = XML.elem ftrRefTag
              [(wTypeAttr, "default"), (rIdAttr, i)] [] from rfl] at hbc
            rw [descSect_leaf] at hbc
            simp at hbc
      · rw [if_neg (by simpa using ht)] at hb
        rw [descSect_elem] at hb
        rw [List.mem_flatMap] at hb
        obtain ⟨c, hc, hbc⟩ := hb
        exact main c hc _ hbc

theorem updateBody_tag (hid? fid? : Option String) (b : XML) :
    (updateBody hid? fid? b).tag = b.tag := by
  rw [updateBody]
  split
  · rfl
  · rfl

theorem descSect_editSect_refs (hid? fid? : Option String) (a : List (String × String)) :
    descSect (editSect hid? fid? (.elem sectTag a [])) = [] := by
  rw [editSect_elem, descSect_elem]
  cases hid? <;> cases fid? <;>
      simp [hdrRef_not_sect, ftrRef_not_sect, headerReferenceElem, footerReferenceElem,
        descSect_leaf, XML.tag] <;>
    decide

theorem descSect_updateBody (hid? fid? : Option String) (b : XML)
    (hb : (b.tag == sectTag) = false) :
    ∀ blk ∈ descSect (updateBody hid? fid? b),
      ∃ a cs, blk = editSect hid? fid? (.elem sectTag a cs) := by
  cases b with
  | elem tb ab cb =>
    rw [updateBody]
    by_cases hemp : (descSect (XML.elem tb ab cb)).isEmpty = true
    · rw [if_pos hemp]
      intro blk hblk
      simp only [XML.tag, XML.attrs, XML.children] at hblk
      rw [descSect_elem, List.flatMap_append] at hblk
      rw [show (cb.flatMap fun c => (if c.tag == sectTag then [c] else []) ++ descSect c) =
          descSect (XML.elem tb ab cb) from (descSect_elem tb ab cb).symm] at hblk
      rw [List.isEmpty_iff.mp hemp] at hblk
      rw [List.nil_append] at hblk
      simp only [List.flatMap_cons, List.flatMap_nil, List.append_nil] at hblk
      rw [editSect_tag] at hblk
      simp only [XML.tag] at hblk
      rw [if_pos (beq_self_eq_true sectTag)] at hblk
      rw [descSect_editSect_refs] at hblk
      rcases List.mem_append.mp hblk with h1 | h2
      · rw [List.mem_singleton] at h1
        exact ⟨[], [], h1⟩
      · simp at h2
    · rw [if_neg hemp]
      intro blk hblk
      simp only [XML.tag, XML.attrs, XML.children] at hblk
      have htb : (tb == sectTag) = false := by simpa [XML.tag] using hb
      rw [show XML.elem tb ab (cb.map (updSect hid? fid?)) =
          updSect hid? fid? (XML.elem tb ab cb) from by rw [updSect_elem, if_neg (by simp [htb])]]
        at hblk
      exact descSect_updSect_aux hid? fid? (sizeOf (XML.elem tb ab cb)) _ (le_refl _) blk hblk

theorem findFirstWith_found {t : String} : ∀ {l : List XML} {b : XML},
    findFirstWith t l = some b → (b.tag == t) = true := by
  intro l
  induction l with
  | nil => intro b h; simp [findFirstWith] at h
  | cons c cs ih =>
    intro b h
    rw [findFirstWith] at h
    by_cases hc : (c.tag == t) = true
    · rw [if_pos hc] at h
      cases h
      exact hc
    · rw [if_neg (by simpa using hc)] at h
      exact ih h

theorem findFirstWith_mapFirstWith (t : String) (f : XML → XML)
    (hf : ∀ x, (f x).tag = x.tag) :
    ∀ l : List XML, findFirstWith t (mapFirstWith t f l) = (findFirstWith t l).map f := by
  intro l
  induction l with
  | nil => rfl
  | cons c cs ih =>
    rw [mapFirstWith]
    by_cases hc : (c.tag == t) = true
    · rw [if_pos hc, findFirstWith, hf c, if_pos hc, findFirstWith, if_pos hc]
      rfl
    · rw [if_neg (by simpa using hc), findFirstWith, if_neg (by simpa using hc),
        findFirstWith, if_neg (by simpa using hc)]
      exact ih

theorem findFirstWith_append_none {t : String} : ∀ {l1 : List XML},
    findFirstWith t l1 = none → ∀ l2, findFirstWith t (l1 ++ l2) = findFirstWith t l2 := by
  intro l1
  induction l1 with
  | nil => intro _ l2; rfl
  | cons c cs ih =>
    intro h l2
    rw [findFirstWith] at h
    by_cases hc : (c.tag == t) = true
    · rw [if_pos hc] at h
      cases h
    · rw [if_neg (by simpa using hc)] at h
      rw [List.cons_append, findFirstWith, if_neg (by simpa using hc)]
      exact ih h l2

theorem bodyTag_not_sect : (bodyTag == sectTag) = false := by decide

/-- Every section block of the rewritten document is an `editSect` image. -/
theorem docBlocks_updateDoc (hid? fid? : Option String) (doc : XML) :
    ∀ blk ∈ docBlocks (updateDoc hid? fid? doc),
      ∃ a cs, blk = editSect hid? fid? (.elem sectTag a cs) := by
  cases doc with
  | elem td ad cd =>
    intro blk hblk
    cases hfind : findFirstWith bodyTag cd with
    | some b =>
      have hupd : updateDoc hid? fid? (.elem td ad cd) =
          .elem td ad (mapFirstWith bodyTag (updateBody hid? fid?) cd) := by
        rw [updateDoc]
        simp only [XML.children, XML.tag, XML.attrs]
        rw [hfind]
      rw [hupd] at hblk
      have hblocks : docBlocks (.elem td ad (mapFirstWith bodyTag (updateBody hid? fid?) cd)) =
          descSect (updateBody hid? fid? b) := by
        simp only [docBlocks, XML.children]
        rw [findFirstWith_mapFirstWith bodyTag _ (updateBody_tag hid? fid?) cd, hfind]
        rfl
      rw [hblocks] at hblk
      have hbtag : (b.tag == bodyTag) = true := findFirstWith_found hfind
      have hbsect : (b.tag == sectTag) = false := by
        have := beq_iff_eq.mp hbtag
        rw [this]
        exact bodyTag_not_sect
      exact descSect_updateBody hid? fid? b hbsect blk hblk
    | none =>
      have hupd : updateDoc hid? fid? (.elem td ad cd) =
          .elem td ad (cd ++ [updateBody hid? fid? (.elem bodyTag [] [])]) := by
        rw [updateDoc]
        simp only [XML.children, XML.tag, XML.attrs]
        rw [hfind]
      rw [hupd] at hblk
      have hblocks : docBlocks (.elem td ad (cd ++ [updateBody hid? fid? (.elem bodyTag [] [])])) =
          descSect (updateBody hid? fid? (.elem bodyTag [] [])) := by
        simp only [docBlocks, XML.children]
        rw [findFirstWith_append_none hfind]
        rw [findFirstWith, updateBody_tag]
        simp only [XML.tag]
        rw [if_pos (beq_self_eq_true bodyTag)]
      rw [hblocks] at hblk
      have hfresh : (XML.tag (.elem bodyTag [] []) == sectTag) = false := by
        simp only [XML.tag]
        exact bodyTag_not_sect
      exact descSect_updateBody hid? fid? (.elem bodyTag [] []) hfresh blk hblk

/-! ## The reference set of an edited section block -/

theorem ftrRef_ne_hdrRef : (ftrRefTag == hdrRefTag) = false := by decide

theorem hdrRef_ne_ftrRef : (hdrRefTag == ftrRefTag) = false := by decide

theorem headerRefsOf_editSect (hid? fid? : Option String) (a : List (String × String))
    (cs : List XML) :
    headerRefsOf (editSect hid? fid? (.elem sectTag a cs)) =
      (match hid? with | some i => [headerReferenceElem i] | none => []) := by
  rw [editSect_elem]
  simp only [headerRefsOf, XML.children, List.filter_append]
  have h1 : (cs.filter (fun c => !(isRefTag c.tag))).filter (fun c => c.tag == hdrRefTag) = [] := by
    rw [List.filter_eq_nil_iff]
    intro c hc
    have h2 := (List.mem_filter.mp hc).2
    simp only [isRefTag, Bool.not_eq_true', Bool.or_eq_false_iff] at h2
    simp [h2.1]
  rw [h1]
  cases hid? <;> cases fid? <;>
    simp [headerReferenceElem, footerReferenceElem, XML.tag, ftrRef_ne_hdrRef]

theorem footerRefsOf_editSect (hid? fid? : Option String) (a : List (String × String))
    (cs : List XML) :
    footerRefsOf (editSect hid? fid? (.elem sectTag a cs)) =
      (match fid? with | some i => [footerReferenceElem i] | none => []) := by
  rw [editSect_elem]
  simp only [footerRefsOf, XML.children, List.filter_append]
  have h1 : (cs.filter (fun c => !(isRefTag c.tag))).filter (fun c => c.tag == ftrRefTag) = [] := by
    rw [List.filter_eq_nil_iff]
    intro c hc
    have h2 := (List.mem_filter.mp hc).2
    simp only [isRefTag, Bool.not_eq_true', Bool.or_eq_false_iff] at h2
    simp [h2.2]
  rw [h1]
  cases hid? <;> cases fid? <;>
    simp [headerReferenceElem, footerReferenceElem, XML.tag, hdrRef_ne_ftrRef]

theorem wType_ne_rId : (wTypeAttr == rIdAttr) = false := by decide

theorem get_headerReferenceElem_rid (i : String) :
    (headerReferenceElem i).get rIdAttr = some i := by
  simp [headerReferenceElem, XML.get, XML.attrs, List.find?, wType_ne_rId]

theorem get_footerReferenceElem_rid (i : String) :
    (footerReferenceElem i).get rIdAttr = some i := by
  simp [footerReferenceElem, XML.get, XML.attrs, List.find?, wType_ne_rId]

/-! ## Ids present in the produced manifest -/

theorem relTag_ends_Relationship : strEnds relationshipTag "Relationship" = true := by decide

theorem get_relationshipElem_id (i ty tgt : String) :
    (relationshipElem i ty tgt).get "Id" = some i := by
  simp [relationshipElem, XML.get, XML.attrs, List.find?]

theorem mem_manifestIds_of_relElem {t : String} {a : List (String × String)} {cs : List XML}
    {i ty tgt : String} (h : relationshipElem i ty tgt ∈ cs) :
    i ∈ manifestIds (.elem t a cs) := by
  simp only [manifestIds, XML.children]
  rw [List.mem_filterMap]
  refine ⟨relationshipElem i ty tgt, ?_, get_relationshipElem_id i ty tgt⟩
  rw [List.mem_filter]
  exact ⟨h, by rw [show (relationshipElem i ty tgt).tag = relationshipTag from rfl]
               exact relTag_ends_Relationship⟩

theorem hid_mem_manifest {rels? : Option XML} {hasH hasF : Bool} {i : String}
    (h : hidOf rels? hasH = some i) :
    i ∈ manifestIds (newRelsOf rels? hasH hasF) := by
  rw [newRelsOf]
  apply @mem_manifestIds_of_relElem _ _ _ _ headerRelType "header1.xml"
  rw [h]
  rw [List.append_assoc]
  exact List.mem_append_right _ (List.mem_append_left _ (List.mem_singleton.mpr rfl))

theorem fid_mem_manifest {rels? : Option XML} {hasH hasF : Bool} {i : String}
    (h : fidOf rels? hasH hasF = some i) :
    i ∈ manifestIds (newRelsOf rels? hasH hasF) := by
  rw [newRelsOf]
  apply @mem_manifestIds_of_relElem _ _ _ _ footerRelType "footer1.xml"
  rw [h]
  exact List.mem_append_right _ (List.mem_singleton.mpr rfl)

/-- The reference-set invariant, on the structural transform. -/
theorem c1_blocks (d? r? : Option XML) (hasH hasF : Bool) :
    ∀ blk ∈ docBlocks (updateDoc (hidOf r? hasH) (fidOf r? hasH hasF) (d?.getD defaultDoc)),
      headerRefsOf blk = (match hidOf r? hasH with
        | some i => [headerReferenceElem i] | none => []) ∧
      footerRefsOf blk = (match fidOf r? hasH hasF with
        | some i => [footerReferenceElem i] | none => []) ∧
      ∀ r ∈ headerRefsOf blk ++ footerRefsOf blk, ∀ rid,
        r.get rIdAttr = some rid → rid ∈ manifestIds (newRelsOf r? hasH hasF) := by
  intro blk hblk
  obtain ⟨a, cs, rfl⟩ := docBlocks_updateDoc _ _ _ blk hblk
  refine ⟨headerRefsOf_editSect _ _ _ _, footerRefsOf_editSect _ _ _ _, ?_⟩
  intro r hr rid hrid
  rw [List.mem_append, headerRefsOf_editSect, footerRefsOf_editSect] at hr
  rcases hr with hr | hr
  · cases hh : hidOf r? hasH with
    | none => rw [hh] at hr; simp at hr
    | some i =>
      rw [hh] at hr
      rw [List.mem_singleton] at hr
      rw [hr, get_headerReferenceElem_rid] at hrid
      cases hrid
      exact hid_mem_manifest hh
  · cases hf : fidOf r? hasH hasF with
    | none => rw [hf] at hr; simp at hr
    | some i =>
      rw [hf] at hr
      rw [List.mem_singleton] at hr
      rw [hr, get_footerReferenceElem_rid] at hrid
      cases hrid
      exact fid_mem_manifest hf

theorem transformOf_doc (src tpl : Pkg) (parse : Bytes → XML) :
    (transformOf src tpl parse).doc =
      updateDoc (hidOf ((bufferPhase src).rels?.map parse)
          (pick_first_part (collect_headers tpl)).isSome)
        (fidOf ((bufferPhase src).rels?.map parse)
          (pick_first_part (collect_headers tpl)).isSome
          (pick_first_part (collect_footers tpl)).isSome)
        (((bufferPhase src).doc?.map parse).getD defaultDoc) := rfl

theorem transformOf_rels (src tpl : Pkg) (parse : Bytes → XML) :
    (transformOf src tpl parse).rels =
      newRelsOf ((bufferPhase src).rels?.map parse)
        (pick_first_part (collect_headers tpl)).isSome
        (pick_first_part (collect_footers tpl)).isSome := rfl

theorem transformOf_ct (src tpl : Pkg) (parse : Bytes → XML) :
    (transformOf src tpl parse).ct =
      newCtOf ((bufferPhase src).ct?.map parse)
        (pick_first_part (collect_headers tpl)).isSome
        (pick_first_part (collect_footers tpl)).isSome := rfl

theorem transformOf_hid (src tpl : Pkg) (parse : Bytes → XML) :
    (transformOf src tpl parse).hid? =
      hidOf ((bufferPhase src).rels?.map parse)
        (pick_first_part (collect_headers tpl)).isSome := rfl

theorem transformOf_fid (src tpl : Pkg) (parse : Bytes → XML) :
    (transformOf src tpl parse).fid? =
      fidOf ((bufferPhase src).rels?.map parse)
        (pick_first_part (collect_headers tpl)).isSome
        (pick_first_part (collect_footers tpl)).isSome := rfl

theorem hidOf_isSome (rels? : Option XML) (hasH : Bool) :
    (hidOf rels? hasH).isSome = hasH := by
  cases hasH <;> simp [hidOf]

theorem fidOf_isSome (rels? : Option XML) (hasH hasF : Bool) :
    (fidOf rels? hasH hasF).isSome = hasF := by
  cases hasF <;> simp [fidOf]

/-- C1.  After every successful transform, every section-properties block
of the output document carries exactly one default header-reference with
the newly allocated header relationship id when a template header was
installed and no header-reference otherwise (symmetrically for the
footer), all blocks carry the same ids, and no reference id is absent from
the final relationship manifest.  A header (resp. footer) is installed
exactly when the template offered a part of that kind. -/
theorem C1_section_reference_invariant (src tpl : Pkg) (parse : Bytes → XML) :
    (∀ blk ∈ docBlocks (transformOf src tpl parse).doc,
      headerRefsOf blk = (match (transformOf src tpl parse).hid? with
        | some i => [headerReferenceElem i] | none => []) ∧
      footerRefsOf blk = (match (transformOf src tpl parse).fid? with
        | some i => [footerReferenceElem i] | none => []) ∧
      ∀ r ∈ headerRefsOf blk ++ footerRefsOf blk, ∀ rid,
        r.get rIdAttr = some rid → rid ∈ manifestIds (transformOf src tpl parse).rels) ∧
    (transformOf src tpl parse).hid?.isSome =
      (pick_first_part (collect_headers tpl)).isSome ∧
    (transformOf src tpl parse).fid?.isSome =
      (pick_first_part (collect_footers tpl)).isSome := by
  refine ⟨?_, ?_, ?_⟩
  · rw [transformOf_doc, transformOf_hid, transformOf_fid, transformOf_rels]
    exact c1_blocks ((bufferPhase src).doc?.map parse) ((bufferPhase src).rels?.map parse)
      (pick_first_part (collect_headers tpl)).isSome
      (pick_first_part (collect_footers tpl)).isSome
  · rw [transformOf_hid, hidOf_isSome]
  · rw [transformOf_fid, fidOf_isSome]

/-! ## Uniqueness and freshness of manifest ids (C5) -/

theorem ridCand_ne_empty (n : Nat) : ridCand n ≠ "" := by
  intro h
  have h2 : ('r' : Char) :: 'I' :: 'd' :: (Nat.repr n).data = [] := congrArg String.data h
  exact List.noConfusion h2

theorem manifestIds_append (t : String) (a : List (String × String)) (l1 l2 : List XML) :
    manifestIds (.elem t a (l1 ++ l2)) =
      manifestIds (.elem t a l1) ++ manifestIds (.elem t a l2) := by
  simp [manifestIds, XML.children, List.filter_append, List.filterMap_append]

theorem manifestIds_nil (t : String) (a : List (String × String)) :
    manifestIds (.elem t a []) = [] := rfl

theorem manifestIds_relElem (t : String) (a : List (String × String)) (i ty tgt : String) :
    manifestIds (.elem t a [relationshipElem i ty tgt]) = [i] := by
  simp only [manifestIds, XML.children]
  rw [show List.filter (fun c => strEnds c.tag "Relationship") [relationshipElem i ty tgt] =
      [relationshipElem i ty tgt] from by
    simp [List.filter, relTag_ends_Relationship, relationshipElem, XML.tag]]
  simp [List.filterMap, get_relationshipElem_id]

theorem mem_manifestIds_cases {root : XML} {i : String} (h : i ∈ manifestIds root) :
    i = "" ∨ i ∈ usedIdsOf root := by
  by_cases hi : i = ""
  · exact Or.inl hi
  · right
    simp only [manifestIds] at h
    rw [List.mem_filterMap] at h
    obtain ⟨c, hc, hget⟩ := h
    rw [List.mem_filter] at hc
    simp only [usedIdsOf]
    rw [List.mem_filterMap]
    refine ⟨c, hc.1, ?_⟩
    simp [hc.2, hget, hi]

theorem manifestIds_kept_sublist (r? : Option XML) (t : String) (a : List (String × String)) :
    (manifestIds (.elem t a (keptRels (rels0Of r?)))).Sublist (manifestIds (rels0Of r?)) := by
  cases hr : rels0Of r? with
  | elem rt ra rcs =>
    simp only [manifestIds, XML.children, keptRels]
    exact ((List.filter_sublist rcs).filter _).filterMap _

theorem mem_kept_manifest {r? : Option XML} {t : String} {a : List (String × String)}
    {i : String} (h : i ∈ manifestIds (.elem t a (keptRels (rels0Of r?)))) :
    i ∈ manifestIds (rels0Of r?) :=
  (manifestIds_kept_sublist r? t a).mem h

theorem hidOf_eq_some {r? : Option XML} {hasH : Bool} {i : String}
    (h : hidOf r? hasH = some i) : i = new_rid (usedIdsOf (rels0Of r?)) := by
  cases hasH with
  | false => simp [hidOf] at h
  | true =>
    simp only [hidOf, if_true] at h
    exact (Option.some.injEq _ _ ▸ h).symm

theorem fidOf_eq_some {r? : Option XML} {hasH hasF : Bool} {i : String}
    (h : fidOf r? hasH hasF = some i) : i = new_rid (usedAfterHeader r? hasH) := by
  cases hasF with
  | false => simp [fidOf] at h
  | true =>
    simp only [fidOf, if_true] at h
    exact (Option.some.injEq _ _ ▸ h).symm

theorem fid_ne_hid {r? : Option XML} {hasH hasF : Bool} {i j : String}
    (hh : hidOf r? hasH = some i) (hf : fidOf r? hasH hasF = some j) : i ≠ j := by
  have hj := fidOf_eq_some hf
  have hnm : j ∉ usedAfterHeader r? hasH := hj ▸ new_rid_not_mem _
  rw [usedAfterHeader, hh] at hnm
  intro hij
  exact hnm (hij ▸ List.mem_cons_self i _)

/-- Freshly allocated ids are absent from the source manifest. -/
theorem fresh_not_in_source {r? : Option XML} {hasH hasF : Bool} {i : String}
    (hi : hidOf r? hasH = some i ∨ fidOf r? hasH hasF = some i) :
    i ∉ manifestIds (rels0Of r?) := by
  intro hmem
  have hform : ∃ n, 9001 ≤ n ∧ i = ridCand n := by
    rcases hi with h | h
    · exact hidOf_eq_some h ▸ new_rid_form _
    · exact fidOf_eq_some h ▸ new_rid_form _
  obtain ⟨n, _, rfl⟩ := hform
  rcases mem_manifestIds_cases hmem with h0 | hused
  · exact ridCand_ne_empty n h0
  · rcases hi with h | h
    · exact (hidOf_eq_some h ▸ new_rid_not_mem (usedIdsOf (rels0Of r?))) hused
    · refine (fidOf_eq_some h ▸ new_rid_not_mem (usedAfterHeader r? hasH)) ?_
      simp only [usedAfterHeader]
      cases hidOf r? hasH with
      | none => exact hused
      | some k => exact List.mem_cons_of_mem k hused

/-- The C5 facts at the level of the structural transform. -/
theorem c5_struct (r? : Option XML) (hasH hasF : Bool)
    (hnd : (manifestIds (rels0Of r?)).Nodup) :
    (manifestIds (newRelsOf r? hasH hasF)).Nodup ∧
    (∀ i, (hidOf r? hasH = some i ∨ fidOf r? hasH hasF = some i) →
      (∃ n, 9001 ≤ n ∧ i = ridCand n) ∧ i ∉ manifestIds (rels0Of r?)) ∧
    (∀ i j, hidOf r? hasH = some i → fidOf r? hasH hasF = some j → i ≠ j) := by
  refine ⟨?_, ?_, fun i j hh hf => fid_ne_hid hh hf⟩
  · rw [newRelsOf]
    cases hr0 : rels0Of r? with
    | elem rt ra rcs =>
      rw [show XML.tag (XML.elem rt ra rcs) = rt from rfl,
        show XML.attrs (XML.elem rt ra rcs) = ra from rfl]
      have hback : XML.elem rt ra rcs = rels0Of r? := hr0.symm
      rw [hback]
      rw [manifestIds_append, manifestIds_append]
      have hA : (manifestIds (.elem rt ra (keptRels (rels0Of r?)))).Nodup :=
        (manifestIds_kept_sublist r? rt ra).nodup hnd
      have hAmem : ∀ k, k ∈ manifestIds (.elem rt ra (keptRels (rels0Of r?))) →
          k ∈ manifestIds (rels0Of r?) := fun k h => mem_kept_manifest h
      cases hh : hidOf r? hasH with
      | none =>
        cases hf : fidOf r? hasH hasF with
        | none => simpa [manifestIds_nil] using hA
        | some j =>
          rw [manifestIds_nil, List.append_nil, manifestIds_relElem]
          rw [List.nodup_append]
          refine ⟨hA, List.nodup_singleton _, ?_⟩
          intro k hkA hkF
          rw [List.mem_singleton] at hkF
          subst hkF
          exact fresh_not_in_source (Or.inr hf) (hAmem _ hkA)
      | some i =>
        cases hf : fidOf r? hasH hasF with
        | none =>
          rw [manifestIds_nil, List.append_nil, manifestIds_relElem]
          rw [List.nodup_append]
          refine ⟨hA, List.nodup_singleton _, ?_⟩
          intro k hkA hkH
          rw [List.mem_singleton] at hkH
          subst hkH
          exact @fresh_not_in_source r? hasH hasF _ (Or.inl hh) (hAmem _ hkA)
        | some j =>
          rw [manifestIds_relElem, manifestIds_relElem]
          rw [List.nodup_append, List.nodup_append]
          refine ⟨⟨hA, List.nodup_singleton _, ?_⟩, List.nodup_singleton _, ?_⟩
          · intro k hkA hkH
            rw [List.mem_singleton] at hkH
            subst hkH
            exact @fresh_not_in_source r? hasH hasF _ (Or.inl hh) (hAmem _ hkA)
          · intro k hk hkF
            rw [List.mem_singleton] at hkF
            subst hkF
            rcases List.mem_append.mp hk with hkA | hkH
            · exact fresh_not_in_source (Or.inr hf) (hAmem _ hkA)
            · rw [List.mem_singleton] at hkH
              exact fid_ne_hid hh hf hkH.symm
  · intro i hi
    refine ⟨?_, fresh_not_in_source hi⟩
    rcases hi with h | h
    · exact hidOf_eq_some h ▸ new_rid_form _
    · exact fidOf_eq_some h ▸ new_rid_form _

/-- C5.  When the source document manifest has pairwise-distinct Ids, the
output manifest has no duplicate Ids; each freshly allocated id is of the
form `rId<n>` with `n ≥ 9001` and differs from every Id of the source
manifest (header/footer or not), and the header and footer ids differ from
each other. -/
theorem C5_id_allocation (src tpl : Pkg) (parse : Bytes → XML)
    (hnd : (manifestIds (rels0Of ((bufferPhase src).rels?.map parse))).Nodup) :
    (manifestIds (transformOf src tpl parse).rels).Nodup ∧
    (∀ i, ((transformOf src tpl parse).hid? = some i ∨
        (transformOf src tpl parse).fid? = some i) →
      (∃ n, 9001 ≤ n ∧ i = ridCand n) ∧
        i ∉ manifestIds (rels0Of ((bufferPhase src).rels?.map parse))) ∧
    (∀ i j, (transformOf src tpl parse).hid? = some i →
      (transformOf src tpl parse).fid? = some j → i ≠ j) := by
  rw [transformOf_rels, transformOf_hid, transformOf_fid]
  exact c5_struct _ _ _ hnd

theorem C5_id_allocation_witness :
    (manifestIds (rels0Of ((bufferPhase (Pkg.mk [])).rels?.map (fun _ => defaultDoc)))).Nodup ∧
    (manifestIds (transformOf (Pkg.mk []) (Pkg.mk [("word/header1.xml", [1])])
      (fun _ => defaultDoc)).rels).Nodup := by
  have h : (manifestIds (rels0Of ((bufferPhase (Pkg.mk [])).rels?.map
      (fun _ => defaultDoc)))).Nodup := by
    rw [show manifestIds (rels0Of ((bufferPhase (Pkg.mk [])).rels?.map
      (fun _ => defaultDoc))) = [] from rfl]
    exact List.nodup_nil
  exact ⟨h, (C5_id_allocation (Pkg.mk []) (Pkg.mk [("word/header1.xml", [1])])
    (fun _ => defaultDoc) h).1⟩

/-! ## Entry-level lemmas: reading, staging, media copy -/

theorem find_assoc_nodup : ∀ (l : List (String × Bytes)) (n : String) (b : Bytes),
    (l.map (fun e => e.1)).Nodup → (n, b) ∈ l → l.find? (fun e => e.1 == n) = some (n, b) := by
  intro l
  induction l with
  | nil => intro n b _ h; simp at h
  | cons e es ih =>
    intro n b hnd hmem
    obtain ⟨k, v⟩ := e
    rw [List.map_cons, List.nodup_cons] at hnd
    rcases List.mem_cons.mp hmem with he | he
    · cases he
      exact List.find?_cons_of_pos _ (by simp)
    · have hk : (k == n) = false := by
        rw [beq_eq_false_iff_ne]
        intro hkn
        subst hkn
        exact hnd.1 (List.mem_map.mpr ⟨(k, b), he, rfl⟩)
      rw [List.find?_cons_of_neg _ (by simp [hk])]
      exact ih n b hnd.2 he

theorem zread?_of_mem {src : Pkg} {n : String} {b : Bytes}
    (hnd : (namelist src).Nodup) (h : (n, b) ∈ src.entries) : zread? src n = some b := by
  have hrev : (src.entries.reverse.map (fun e => e.1)).Nodup := by
    rw [List.map_reverse]
    exact (List.nodup_reverse).mpr hnd
  have hmem : (n, b) ∈ src.entries.reverse := List.mem_reverse.mpr h
  rw [zread?, find_assoc_nodup src.entries.reverse n b hrev hmem]
  rfl

theorem zreadD_of_mem {src : Pkg} {n : String} {b : Bytes}
    (hnd : (namelist src).Nodup) (h : (n, b) ∈ src.entries) : zreadD src n = b := by
  rw [zreadD, zread?_of_mem hnd h]
  rfl

/-- Passthrough entries reach the staged output. -/
theorem stage_out_mem (src : Pkg) :
    ∀ (names : List String) (n : String), n ∈ names →
      n ≠ "word/document.xml" → n ≠ "word/_rels/document.xml.rels" →
      n ≠ "[Content_Types].xml" →
      is_header_footer_part n = false → is_header_footer_rels n = false →
      (n, zreadD src n) ∈ (stageEntries src names).out := by
  intro names
  induction names with
  | nil => intro n h; simp at h
  | cons m ms ih =>
    intro n hmem h1 h2 h3 h4 h5
    rcases List.mem_cons.mp hmem with hEq | hmem2
    · subst hEq
      have c1 : ¬((n == "word/document.xml") = true) := by simpa using h1
      have c2 : ¬((n == "word/_rels/document.xml.rels") = true) := by simpa using h2
      have c3 : ¬((n == "[Content_Types].xml") = true) := by simpa using h3
      have c4 : ¬((is_header_footer_part n || is_header_footer_rels n) = true) := by
        simp [h4, h5]
      simp only [stageEntries]
      rw [if_neg c1, if_neg c2, if_neg c3, if_neg c4]
      exact List.mem_cons_self _ _
    · have hrest := ih n hmem2 h1 h2 h3 h4 h5
      simp only [stageEntries]
      by_cases d1 : (m == "word/document.xml") = true
      · rw [if_pos d1]; exact hrest
      · rw [if_neg d1]
        by_cases d2 : (m == "word/_rels/document.xml.rels") = true
        · rw [if_pos d2]; exact hrest
        · rw [if_neg d2]
          by_cases d3 : (m == "[Content_Types].xml") = true
          · rw [if_pos d3]; exact hrest
          · rw [if_neg d3]
            by_cases d4 : (is_header_footer_part m || is_header_footer_rels m) = true
            · rw [if_pos d4]; exact hrest
            · rw [if_neg d4]
              exact List.mem_cons_of_mem _ hrest

/-- What the staged output can contain. -/
theorem stage_out_names (src : Pkg) :
    ∀ (names : List String), ∀ e ∈ (stageEntries src names).out,
      e.1 ∈ names ∧ e = (e.1, zreadD src e.1) ∧
      is_header_footer_part e.1 = false ∧ is_header_footer_rels e.1 = false ∧
      e.1 ≠ "word/document.xml" ∧ e.1 ≠ "word/_rels/document.xml.rels" ∧
      e.1 ≠ "[Content_Types].xml" := by
  intro names
  induction names with
  | nil => intro e h; simp [stageEntries] at h
  | cons m ms ih =>
    intro e he
    simp only [stageEntries] at he
    by_cases d1 : (m == "word/document.xml") = true
    · rw [if_pos d1] at he
      have h := ih e he
      exact ⟨List.mem_cons_of_mem _ h.1, h.2⟩
    · rw [if_neg d1] at he
      by_cases d2 : (m == "word/_rels/document.xml.rels") = true
      · rw [if_pos d2] at he
        have h := ih e he
        exact ⟨List.mem_cons_of_mem _ h.1, h.2⟩
      · rw [if_neg d2] at he
        by_cases d3 : (m == "[Content_Types].xml") = true
        · rw [if_pos d3] at he
          have h := ih e he
          exact ⟨List.mem_cons_of_mem _ h.1, h.2⟩
        · rw [if_neg d3] at he
          by_cases d4 : (is_header_footer_part m || is_header_footer_rels m) = true
          · rw [if_pos d4] at he
            have h := ih e he
            exact ⟨List.mem_cons_of_mem _ h.1, h.2⟩
          · rw [if_neg d4] at he
            rcases List.mem_cons.mp he with hEq | hmem2
            · subst hEq
              rw [Bool.or_eq_true] at d4
              push_neg at d4
              refine ⟨List.mem_cons_self _ _, rfl, by simpa using d4.1, by simpa using d4.2,
                by simpa using d1, by simpa using d2, by simpa using d3⟩
            · have h := ih e hmem2
              exact ⟨List.mem_cons_of_mem _ h.1, h.2⟩

/-- The media copy only appends, and only `word/media/` names. -/
theorem media_fold_extends (tpl : Pkg) :
    ∀ (ns : List String) (acc : List (String × Bytes)),
      ∃ extra, ns.foldl (mediaStep tpl) acc = acc ++ extra ∧
        ∀ e ∈ extra, strStarts e.1 "word/media/" = true := by
  intro ns
  induction ns with
  | nil => intro acc; exact ⟨[], by simp, by simp⟩
  | cons m ms ih =>
    intro acc
    rw [List.foldl_cons]
    obtain ⟨extra, he, hall⟩ := ih (mediaStep tpl acc m)
    by_cases hc : (strStarts m "word/media/" && !(acc.any (fun e => e.1 == m))) = true
    · refine ⟨(m, zreadD tpl m) :: extra, ?_, ?_⟩
      · rw [show mediaStep tpl acc m = acc ++ [(m, zreadD tpl m)] from by
          rw [mediaStep, if_pos hc]]
        rw [show mediaStep tpl acc m = acc ++ [(m, zreadD tpl m)] from by
          rw [mediaStep, if_pos hc]] at he
        rw [he, List.append_assoc]
        rfl
      · intro e hee
        rcases List.mem_cons.mp hee with hEq | hm
        · subst hEq
          have hc2 := hc
          simp only [Bool.and_eq_true] at hc2
          exact hc2.1
        · exact hall e hm
    · refine ⟨extra, ?_, hall⟩
      rw [show mediaStep tpl acc m = acc from by rw [mediaStep, if_neg hc]]
      rw [show mediaStep tpl acc m = acc from by rw [mediaStep, if_neg hc]] at he
      exact he

/-- A fresh template media entry is copied. -/
theorem media_fold_mem (tpl : Pkg) :
    ∀ (ns : List String) (acc : List (String × Bytes)) (n : String),
      n ∈ ns → strStarts n "word/media/" = true →
      (∀ e ∈ acc, e.1 ≠ n) →
      (n, zreadD tpl n) ∈ ns.foldl (mediaStep tpl) acc := by
  intro ns
  induction ns with
  | nil => intro acc n h; simp at h
  | cons m ms ih =>
    intro acc n hmem hmedia hacc
    rw [List.foldl_cons]
    by_cases hmn : m = n
    · subst hmn
      have hany : (acc.any (fun e => e.1 == m)) = false := by
        rw [List.any_eq_false]
        intro e hee
        simpa using hacc e hee
      rw [mediaStep, if_pos (by rw [hmedia, hany]; rfl)]
      obtain ⟨extra, he, _⟩ := media_fold_extends tpl ms (acc ++ [(m, zreadD tpl m)])
      rw [he]
      exact List.mem_append_left _ (List.mem_append_right _ (List.mem_singleton.mpr rfl))
    · have hmem2 : n ∈ ms := by
        rcases List.mem_cons.mp hmem with h | h
        · exact absurd h.symm hmn
        · exact h
      rw [mediaStep]
      by_cases hc : (strStarts m "word/media/" && !(acc.any (fun e => e.1 == m))) = true
      · rw [if_pos hc]
        refine ih (acc ++ [(m, zreadD tpl m)]) n hmem2 hmedia ?_
        intro e hee
        rcases List.mem_append.mp hee with h | h
        · exact hacc e h
        · rw [List.mem_singleton] at h
          subst h
          exact hmn
      · rw [if_neg hc]
        exact ih acc n hmem2 hmedia hacc

theorem mem_raw_of_staged {src tpl : Pkg} {e : String × Bytes}
    (h : e ∈ (bufferPhase src).out) : e ∈ rawEntries src tpl := by
  rw [rawEntries]
  obtain ⟨extra, he, _⟩ := media_fold_extends tpl (namelist tpl) (bufferPhase src).out
  rw [ensure_media_dependencies, he]
  exact List.mem_append_left _ (List.mem_append_left _ (List.mem_append_left _ h))

/-- Passthrough entries of the source reach the output byte-for-byte. -/
theorem passthrough_mem_output (src tpl : Pkg) (parse : Bytes → XML) (ser : XML → Bytes)
    (hnd : (namelist src).Nodup) :
    ∀ n b, (n, b) ∈ src.entries →
      n ≠ "word/document.xml" → n ≠ "word/_rels/document.xml.rels" →
      n ≠ "[Content_Types].xml" →
      is_header_footer_part n = false → is_header_footer_rels n = false →
      (n, b) ∈ outputEntries src tpl parse ser := by
  intro n b hmem h1 h2 h3 h4 h5
  have hn : n ∈ namelist src := List.mem_map.mpr ⟨(n, b), hmem, rfl⟩
  have hb := zreadD_of_mem hnd hmem
  have hst := stage_out_mem src (namelist src) n hn h1 h2 h3 h4 h5
  rw [hb] at hst
  exact List.mem_append_left _ (mem_raw_of_staged hst)

/-- C2.  Every source entry that is not the document part, the document
relationship manifest, the content-type registry, a header/footer part or a
header/footer relationship file appears in the output package with exactly
the same bytes. -/
theorem C2_passthrough_byte_identical (src tpl : Pkg) (parse : Bytes → XML) (ser : XML → Bytes)
    (hnd : (namelist src).Nodup) :
    ∀ n b, (n, b) ∈ src.entries →
      n ≠ "word/document.xml" → n ≠ "word/_rels/document.xml.rels" →
      n ≠ "[Content_Types].xml" →
      is_header_footer_part n = false → is_header_footer_rels n = false →
      (n, b) ∈ outputEntries src tpl parse ser :=
  passthrough_mem_output src tpl parse ser hnd

theorem C2_passthrough_byte_identical_witness :
    (namelist (Pkg.mk [("word/x.bin", [7])])).Nodup ∧
    ("word/x.bin", [7]) ∈ outputEntries (Pkg.mk [("word/x.bin", [7])]) (Pkg.mk [])
      (fun _ => defaultDoc) (fun _ => []) := by
  refine ⟨by decide, ?_⟩
  exact C2_passthrough_byte_identical (Pkg.mk [("word/x.bin", [7])]) (Pkg.mk [])
    (fun _ => defaultDoc) (fun _ => []) (by decide) "word/x.bin" [7] (by decide)
    (by decide) (by decide) (by decide) (by decide) (by decide)

/-! ## Where each output entry comes from -/

theorem headerWrites_of_pick {tpl : Pkg} {m : String}
    (h : pick_first_part (collect_headers tpl) = some m) :
    ("word/header1.xml", zreadD tpl m) ∈ headerWrites tpl := by
  rw [headerWrites, h]
  exact List.mem_cons_self _ _

theorem footerWrites_of_pick {tpl : Pkg} {m : String}
    (h : pick_first_part (collect_footers tpl) = some m) :
    ("word/footer1.xml", zreadD tpl m) ∈ footerWrites tpl := by
  rw [footerWrites, h]
  exact List.mem_cons_self _ _

theorem headerWrites_nil {tpl : Pkg} (h : pick_first_part (collect_headers tpl) = none) :
    headerWrites tpl = [] := by
  rw [headerWrites, h]

theorem footerWrites_nil {tpl : Pkg} (h : pick_first_part (collect_footers tpl) = none) :
    footerWrites tpl = [] := by
  rw [footerWrites, h]

theorem mem_headerWrites {tpl : Pkg} {e : String × Bytes} (h : e ∈ headerWrites tpl) :
    (∃ m, pick_first_part (collect_headers tpl) = some m ∧
      e = ("word/header1.xml", zreadD tpl m)) ∨ e.1 = "word/_rels/header1.xml.rels" := by
  rw [headerWrites] at h
  cases hp : pick_first_part (collect_headers tpl) with
  | none => rw [hp] at h; simp at h
  | some m =>
    rw [hp] at h
    rcases List.mem_cons.mp h with hEq | h2
    · exact Or.inl ⟨m, rfl, hEq⟩
    · right
      by_cases hm : (m == "") = true
      · rw [if_pos hm] at h2
        simp at h2
      · rw [if_neg hm] at h2
        cases hz : zread? tpl ("word/_rels/" ++ basename m ++ ".rels") with
        | none => rw [hz] at h2; simp at h2
        | some d =>
          rw [hz, List.mem_singleton] at h2
          rw [h2]

theorem mem_footerWrites {tpl : Pkg} {e : String × Bytes} (h : e ∈ footerWrites tpl) :
    (∃ m, pick_first_part (collect_footers tpl) = some m ∧
      e = ("word/footer1.xml", zreadD tpl m)) ∨ e.1 = "word/_rels/footer1.xml.rels" := by
  rw [footerWrites] at h
  cases hp : pick_first_part (collect_footers tpl) with
  | none => rw [hp] at h; simp at h
  | some m =>
    rw [hp] at h
    rcases List.mem_cons.mp h with hEq | h2
    · exact Or.inl ⟨m, rfl, hEq⟩
    · right
      by_cases hm : (m == "") = true
      · rw [if_pos hm] at h2
        simp at h2
      · rw [if_neg hm] at h2
        cases hz : zread? tpl ("word/_rels/" ++ basename m ++ ".rels") with
        | none => rw [hz] at h2; simp at h2
        | some d =>
          rw [hz, List.mem_singleton] at h2
          rw [h2]

theorem mem_outputEntries_cases {src tpl : Pkg} {parse : Bytes → XML} {ser : XML → Bytes}
    {e : String × Bytes} (h : e ∈ outputEntries src tpl parse ser) :
    e ∈ (bufferPhase src).out ∨ strStarts e.1 "word/media/" = true ∨
    e ∈ headerWrites tpl ∨ e ∈ footerWrites tpl ∨
    e.1 = "[Content_Types].xml" ∨ e.1 = "word/_rels/document.xml.rels" ∨
    e.1 = "word/document.xml" := by
  rw [outputEntries] at h
  rcases List.mem_append.mp h with h1 | h1
  · rw [rawEntries] at h1
    rcases List.mem_append.mp h1 with h2 | h2
    · rcases List.mem_append.mp h2 with h3 | h3
      · obtain ⟨extra, he, hall⟩ := media_fold_extends tpl (namelist tpl) (bufferPhase src).out
        rw [ensure_media_dependencies, he] at h3
        rcases List.mem_append.mp h3 with h4 | h4
        · exact Or.inl h4
        · exact Or.inr (Or.inl (hall e h4))
      · exact Or.inr (Or.inr (Or.inl h3))
    · exact Or.inr (Or.inr (Or.inr (Or.inl h2)))
  · simp only [List.mem_cons, List.mem_singleton] at h1
    rcases h1 with h2 | h2 | h2 | h2
    · exact Or.inr (Or.inr (Or.inr (Or.inr (Or.inl (by rw [h2])))))
    · exact Or.inr (Or.inr (Or.inr (Or.inr (Or.inr (Or.inl (by rw [h2]))))))
    · exact Or.inr (Or.inr (Or.inr (Or.inr (Or.inr (Or.inr (by rw [h2]))))))
    · simp at h2

theorem find?_unique : ∀ (l : List (String × Bytes)) (n : String) (b : Bytes),
    (n, b) ∈ l → (∀ e ∈ l, e.1 = n → e = (n, b)) →
    l.find? (fun e => e.1 == n) = some (n, b) := by
  intro l
  induction l with
  | nil => intro n b h; simp at h
  | cons e es ih =>
    intro n b hmem hu
    by_cases hc : ((fun e => e.1 == n) e) = true
    · rw [@List.find?_cons_of_pos _ (fun e => e.1 == n) e es hc]
      rw [hu e (List.mem_cons_self _ _) (beq_iff_eq.mp hc)]
    · rw [@List.find?_cons_of_neg _ (fun e => e.1 == n) e es (by simpa using hc)]
      have hmem2 : (n, b) ∈ es := by
        rcases List.mem_cons.mp hmem with hEq | h2
        · rw [← hEq] at hc
          simp at hc
        · exact h2
      exact ih n b hmem2 (fun e2 he2 hn2 => hu e2 (List.mem_cons_of_mem _ he2) hn2)

theorem zread?_unique {p : Pkg} {n : String} {b : Bytes} (hmem : (n, b) ∈ p.entries)
    (hu : ∀ e ∈ p.entries, e.1 = n → e = (n, b)) : zread? p n = some b := by
  rw [zread?, find?_unique p.entries.reverse n b (List.mem_reverse.mpr hmem)
    (fun e he hn => hu e (List.mem_reverse.mp he) hn)]
  rfl

theorem hfp_header1 : is_header_footer_part "word/header1.xml" = true := by decide

theorem hfp_footer1 : is_header_footer_part "word/footer1.xml" = true := by decide

/-- Only the selected template header can produce the `word/header1.xml`
output entry. -/
theorem output_header1_unique {src tpl : Pkg} {parse : Bytes → XML} {ser : XML → Bytes}
    {m : String} (hp : pick_first_part (collect_headers tpl) = some m) :
    ∀ e ∈ outputEntries src tpl parse ser, e.1 = "word/header1.xml" →
      e = ("word/header1.xml", zreadD tpl m) := by
  intro e he hn
  rcases mem_outputEntries_cases he with h | h | h | h | h | h | h
  · have := (stage_out_names src (namelist src) e h).2.2.1
    rw [hn, hfp_header1] at this
    cases this
  · rw [hn] at h
    exact absurd h (by decide)
  · rcases mem_headerWrites h with ⟨m2, hp2, hEq⟩ | hr
    · rw [hp] at hp2
      cases hp2
      exact hEq
    · rw [hn] at hr
      exact absurd hr (by decide)
  · rcases mem_footerWrites h with ⟨m2, hp2, hEq⟩ | hr
    · rw [hEq] at hn
      have hn2 : "word/footer1.xml" = "word/header1.xml" := hn
      exact absurd hn2 (by decide)
    · rw [hn] at hr
      exact absurd hr (by decide)
  · rw [hn] at h
    exact absurd h (by decide)
  · rw [hn] at h
    exact absurd h (by decide)
  · rw [hn] at h
    exact absurd h (by decide)

theorem output_footer1_unique {src tpl : Pkg} {parse : Bytes → XML} {ser : XML → Bytes}
    {m : String} (hp : pick_first_part (collect_footers tpl) = some m) :
    ∀ e ∈ outputEntries src tpl parse ser, e.1 = "word/footer1.xml" →
      e = ("word/footer1.xml", zreadD tpl m) := by
  intro e he hn
  rcases mem_outputEntries_cases he with h | h | h | h | h | h | h
  · have := (stage_out_names src (namelist src) e h).2.2.1
    rw [hn, hfp_footer1] at this
    cases this
  · rw [hn] at h
    exact absurd h (by decide)
  · rcases mem_headerWrites h with ⟨m2, hp2, hEq⟩ | hr
    · rw [hEq] at hn
      have hn2 : "word/header1.xml" = "word/footer1.xml" := hn
      exact absurd hn2 (by decide)
    · rw [hn] at hr
      exact absurd hr (by decide)
  · rcases mem_footerWrites h with ⟨m2, hp2, hEq⟩ | hr
    · rw [hp] at hp2
      cases hp2
      exact hEq
    · rw [hn] at hr
      exact absurd hr (by decide)
  · rw [hn] at h
    exact absurd h (by decide)
  · rw [hn] at h
    exact absurd h (by decide)
  · rw [hn] at h
    exact absurd h (by decide)

theorem pick_of_ne_nil {names : List String} (h : names ≠ []) :
    ∃ m, pick_first_part names = some m := by
  cases names with
  | nil => exact absurd rfl h
  | cons n ns => exact ⟨_, rfl⟩

theorem header1_mem_output (src tpl : Pkg) (parse : Bytes → XML) (ser : XML → Bytes)
    {m : String} (hp : pick_first_part (collect_headers tpl) = some m) :
    ("word/header1.xml", zreadD tpl m) ∈ outputEntries src tpl parse ser := by
  rw [outputEntries, rawEntries]
  exact List.mem_append_left _ (List.mem_append_left _
    (List.mem_append_right _ (headerWrites_of_pick hp)))

theorem footer1_mem_output (src tpl : Pkg) (parse : Bytes → XML) (ser : XML → Bytes)
    {m : String} (hp : pick_first_part (collect_footers tpl) = some m) :
    ("word/footer1.xml", zreadD tpl m) ∈ outputEntries src tpl parse ser := by
  rw [outputEntries, rawEntries]
  exact List.mem_append_left _ (List.mem_append_right _ (footerWrites_of_pick hp))

/-- C3.  When the template has header parts, `word/header1.xml` in the
output carries the bytes of the lexicographically smallest-named template
header part; symmetrically for `word/footer1.xml`. -/
theorem C3_canonical_part_bytes (src tpl : Pkg) (parse : Bytes → XML) (ser : XML → Bytes) :
    (collect_headers tpl ≠ [] →
      ∃ m, m ∈ collect_headers tpl ∧ (∀ k ∈ collect_headers tpl, strLt k m = false) ∧
        zread? (outputPkg src tpl parse ser) "word/header1.xml" = some (zreadD tpl m)) ∧
    (collect_footers tpl ≠ [] →
      ∃ m, m ∈ collect_footers tpl ∧ (∀ k ∈ collect_footers tpl, strLt k m = false) ∧
        zread? (outputPkg src tpl parse ser) "word/footer1.xml" = some (zreadD tpl m)) := by
  constructor
  · intro hne
    obtain ⟨m, hp⟩ := pick_of_ne_nil hne
    obtain ⟨hmem, hmin⟩ := pick_first_part_spec hp
    refine ⟨m, hmem, hmin, ?_⟩
    exact zread?_unique (header1_mem_output src tpl parse ser hp)
      (output_header1_unique hp)
  · intro hne
    obtain ⟨m, hp⟩ := pick_of_ne_nil hne
    obtain ⟨hmem, hmin⟩ := pick_first_part_spec hp
    refine ⟨m, hmem, hmin, ?_⟩
    exact zread?_unique (footer1_mem_output src tpl parse ser hp)
      (output_footer1_unique hp)

theorem C3_canonical_part_bytes_witness :
    (collect_headers (Pkg.mk [("word/header2.xml", [2]), ("word/header1.xml", [1]),
      ("word/footer1.xml", [3])]) ≠ []) ∧
    (collect_footers (Pkg.mk [("word/header2.xml", [2]), ("word/header1.xml", [1]),
      ("word/footer1.xml", [3])]) ≠ []) ∧
    (∃ m, m ∈ collect_headers (Pkg.mk [("word/header2.xml", [2]), ("word/header1.xml", [1]),
        ("word/footer1.xml", [3])]) ∧
      (∀ k ∈ collect_headers (Pkg.mk [("word/header2.xml", [2]), ("word/header1.xml", [1]),
        ("word/footer1.xml", [3])]), strLt k m = false) ∧
      zread? (outputPkg (Pkg.mk []) (Pkg.mk [("word/header2.xml", [2]),
          ("word/header1.xml", [1]), ("word/footer1.xml", [3])])
        (fun _ => defaultDoc) (fun _ => [])) "word/header1.xml" =
        some (zreadD (Pkg.mk [("word/header2.xml", [2]), ("word/header1.xml", [1]),
          ("word/footer1.xml", [3])]) m)) := by
  refine ⟨by decide, by decide, ?_⟩
  exact (C3_canonical_part_bytes (Pkg.mk []) (Pkg.mk [("word/header2.xml", [2]),
    ("word/header1.xml", [1]), ("word/footer1.xml", [3])])
    (fun _ => defaultDoc) (fun _ => [])).1 (by decide)

/-! ## Classification is by full-name prefix (C9) -/

/-- C9 counterexample.  The entry `word/headerparts/x.xml` — whose basename
does not start with `header` — is nevertheless classified as a
header/footer part (the code matches the prefix on the full entry name) and
is dropped from the output instead of passing through. -/
theorem C9_counterexample :
    is_header_footer_part "word/headerparts/x.xml" = true ∧
    ("word/headerparts/x.xml", [7]) ∉
      outputEntries (Pkg.mk [("word/headerparts/x.xml", [7])]) (Pkg.mk [])
        (fun _ => defaultDoc) (fun _ => []) := by
  constructor
  · decide
  · decide

/-- C9 amended.  An entry is classified (and dropped) as a header/footer
part exactly when its full name starts with `word/header` or `word/footer`
and ends with `.xml` — a prefix match on the whole path, not on the
basename — while every non-matching, non-special entry passes through
byte-for-byte. -/
theorem C9_amended_full_name_classification (src tpl : Pkg) (parse : Bytes → XML) (ser : XML → Bytes)
    (hnd : (namelist src).Nodup) :
    (∀ n b, ((strStarts n "word/header" || strStarts n "word/footer") && strEnds n ".xml") = true →
      (n, b) ∉ (bufferPhase src).out) ∧
    (∀ n b, (n, b) ∈ src.entries →
      ((strStarts n "word/header" || strStarts n "word/footer") && strEnds n ".xml") = false →
      is_header_footer_rels n = false →
      n ≠ "word/document.xml" → n ≠ "word/_rels/document.xml.rels" →
      n ≠ "[Content_Types].xml" →
      (n, b) ∈ outputEntries src tpl parse ser) := by
  constructor
  · intro n b hcls hmem
    have hfp := (stage_out_names src (namelist src) (n, b) hmem).2.2.1
    rw [show is_header_footer_part n =
      ((strStarts n "word/header" || strStarts n "word/footer") && strEnds n ".xml") from rfl,
      hcls] at hfp
    cases hfp
  · intro n b hmem hcls hrels h1 h2 h3
    exact passthrough_mem_output src tpl parse ser hnd n b hmem h1 h2 h3
      (by rw [show is_header_footer_part n =
        ((strStarts n "word/header" || strStarts n "word/footer") && strEnds n ".xml") from rfl]
          exact hcls) hrels

theorem C9_amended_full_name_classification_witness :
    (namelist (Pkg.mk [("word/x.bin", [7]), ("word/headerparts/y.xml", [9])])).Nodup ∧
    ("word/headerparts/y.xml", [9]) ∉
      (bufferPhase (Pkg.mk [("word/x.bin", [7]), ("word/headerparts/y.xml", [9])])).out ∧
    ("word/x.bin", [7]) ∈
      outputEntries (Pkg.mk [("word/x.bin", [7]), ("word/headerparts/y.xml", [9])])
        (Pkg.mk []) (fun _ => defaultDoc) (fun _ => []) := by
  refine ⟨by decide, ?_, ?_⟩
  · exact (C9_amended_full_name_classification (Pkg.mk [("word/x.bin", [7]),
      ("word/headerparts/y.xml", [9])]) (Pkg.mk []) (fun _ => defaultDoc) (fun _ => [])
      (by decide)).1 "word/headerparts/y.xml" [9] (by decide)
  · exact (C9_amended_full_name_classification (Pkg.mk [("word/x.bin", [7]),
      ("word/headerparts/y.xml", [9])]) (Pkg.mk []) (fun _ => defaultDoc) (fun _ => [])
      (by decide)).2 "word/x.bin" [7] (by decide) (by decide) (by decide) (by decide)
      (by decide) (by decide)

/-! ## Template media copy is conditional (C4) -/

/-- C4 counterexample.  When the source already carries an entry of the
same name, the template's media bytes are NOT copied: the source's bytes
win (`_ensure_media_dependencies` checks `item not in out_zip.namelist()`),
refuting the unconditional-copy claim. -/
theorem C4_counterexample :
    "word/media/a.png" ∈ namelist (Pkg.mk [("word/media/a.png", [2])]) ∧
    ("word/media/a.png", [2]) ∉
      outputEntries (Pkg.mk [("word/media/a.png", [1])]) (Pkg.mk [("word/media/a.png", [2])])
        (fun _ => defaultDoc) (fun _ => []) := by
  constructor
  · decide
  · decide

/-- C4 amended.  Every template `word/media/` entry whose name was not
already staged from the source is copied verbatim into the output. -/
theorem C4_amended_media_copy (src tpl : Pkg) (parse : Bytes → XML) (ser : XML → Bytes) :
    ∀ n, n ∈ namelist tpl → strStarts n "word/media/" = true →
      (∀ e ∈ (bufferPhase src).out, e.1 ≠ n) →
      (n, zreadD tpl n) ∈ outputEntries src tpl parse ser := by
  intro n hmem hmedia hfresh
  rw [outputEntries, rawEntries, ensure_media_dependencies]
  exact List.mem_append_left _ (List.mem_append_left _ (List.mem_append_left _
    (media_fold_mem tpl (namelist tpl) (bufferPhase src).out n hmem hmedia hfresh)))

theorem C4_amended_media_copy_witness :
    "word/media/b.png" ∈ namelist (Pkg.mk [("word/media/b.png", [5])]) ∧
    ("word/media/b.png", zreadD (Pkg.mk [("word/media/b.png", [5])]) "word/media/b.png") ∈
      outputEntries (Pkg.mk []) (Pkg.mk [("word/media/b.png", [5])])
        (fun _ => defaultDoc) (fun _ => []) := by
  refine ⟨by decide, ?_⟩
  exact C4_amended_media_copy (Pkg.mk []) (Pkg.mk [("word/media/b.png", [5])])
    (fun _ => defaultDoc) (fun _ => []) "word/media/b.png" (by decide) (by decide) (by decide)

/-! ## Orchestrator: failure atomicity and the extension gate (C6, C8) -/

theorem find?_filter_ne : ∀ (l : List (String × Bytes)) (p q : String), p ≠ q →
    (l.filter (fun e => !(e.1 == p))).find? (fun e => e.1 == q) =
      l.find? (fun e => e.1 == q) := by
  intro l
  induction l with
  | nil => intro p q h; rfl
  | cons e es ih =>
    intro p q h
    by_cases hep : (e.1 == p) = true
    · have heq : (e.1 == q) = false := by
        rw [beq_eq_false_iff_ne]
        intro hq
        exact h (((beq_iff_eq.mp hep).symm.trans hq).symm ▸ rfl)
      rw [List.filter_cons_of_neg (by simp [hep])]
      rw [ih p q h]
      rw [@List.find?_cons_of_neg _ (fun e => e.1 == q) e es (by simp [heq])]
    · rw [List.filter_cons_of_pos (by simp [hep])]
      by_cases heq : (e.1 == q) = true
      · rw [@List.find?_cons_of_pos _ (fun e => e.1 == q) e _ heq,
          @List.find?_cons_of_pos _ (fun e => e.1 == q) e es heq]
      · rw [@List.find?_cons_of_neg _ (fun e => e.1 == q) e _ (by simpa using heq),
          @List.find?_cons_of_neg _ (fun e => e.1 == q) e es (by simpa using heq)]
        exact ih p q h

theorem lookup_removeFile_ne (fs : FS) {p q : String} (h : p ≠ q) :
    (fs.removeFile p).lookup q = fs.lookup q := by
  rw [FS.removeFile, FS.lookup, FS.lookup]
  rw [find?_filter_ne fs.files p q h]

theorem lookup_removeFile_self (fs : FS) (p : String) :
    (fs.removeFile p).lookup p = none := by
  rw [FS.removeFile, FS.lookup]
  rw [List.find?_eq_none.mpr]
  · rfl
  · intro e he
    have := (List.mem_filter.mp he).2
    simp at this
    simp [this]

theorem lookup_setFile_ne (fs : FS) {p q : String} (h : p ≠ q) (b : Bytes) :
    (fs.setFile p b).lookup q = fs.lookup q := by
  rw [FS.setFile, FS.lookup, FS.lookup]
  rw [@List.find?_cons_of_neg _ (fun e => e.1 == q) (p, b) _ (by simp [h])]
  exact congrArg _ (find?_filter_ne fs.files p q h)

theorem cleanup_dst (fs : FS) {tmp dst : String} (hne : tmp ≠ dst) (b : Bytes) :
    (((fs.setFile tmp b)).removeFile tmp).lookup dst = fs.lookup dst := by
  rw [lookup_removeFile_ne _ hne, lookup_setFile_ne _ hne]

/-- On any error the resulting file system is either untouched (extension
gate) or the cleaned-up state with the temporary file removed. -/
theorem apply_error_fs (unzip : Bytes → Option Pkg) (emit : Pkg → Pkg → Option Bytes)
    (fs : FS) (sp tp dp tmp : String) :
    ∀ e, (apply_template_to_docx unzip emit fs sp tp dp tmp).err? = some e →
      (apply_template_to_docx unzip emit fs sp tp dp tmp).fs = fs ∨
      (apply_template_to_docx unzip emit fs sp tp dp tmp).fs =
        (fs.setFile tmp []).removeFile tmp := by
  intro e
  rw [apply_template_to_docx]
  split
  · intro _
    exact Or.inl rfl
  · dsimp only
    split
    · intro _
      exact Or.inr rfl
    · split
      · intro _
        exact Or.inr rfl
      · split
        · intro _
          exact Or.inr rfl
        · split
          · intro _
            exact Or.inr rfl
          · split
            · intro _
              exact Or.inr rfl
            · intro h
              exact absurd h (by simp)

/-- C6.  Whenever the call fails — missing input, invalid container, or a
failure anywhere inside the pipeline — the error is propagated, the
destination path's content is exactly its pre-call content, and the
temporary output file is gone. -/
theorem C6_failure_atomicity (unzip : Bytes → Option Pkg) (emit : Pkg → Pkg → Option Bytes)
    (fs : FS) (src_path tpl_path dst_path tmp_out : String)
    (hfresh : fs.lookup tmp_out = none) (hne : tmp_out ≠ dst_path) :
    ∀ e, (apply_template_to_docx unzip emit fs src_path tpl_path dst_path tmp_out).err? =
        some e →
      (apply_template_to_docx unzip emit fs src_path tpl_path dst_path tmp_out).fs.lookup
          dst_path = fs.lookup dst_path ∧
      (apply_template_to_docx unzip emit fs src_path tpl_path dst_path tmp_out).fs.lookup
          tmp_out = none := by
  intro e herr
  rcases apply_error_fs unzip emit fs src_path tpl_path dst_path tmp_out e herr with h | h
  · rw [h]
    exact ⟨rfl, hfresh⟩
  · rw [h]
    exact ⟨cleanup_dst fs hne [], lookup_removeFile_self _ _⟩

theorem C6_failure_atomicity_witness :
    (FS.mk []).lookup "tmp1" = none ∧ "tmp1" ≠ "out.docx" ∧
    (apply_template_to_docx (fun _ => none) (fun _ _ => none) (FS.mk [])
      "a.docx" "b.docx" "out.docx" "tmp1").err? = some TError.notFound ∧
    ((apply_template_to_docx (fun _ => none) (fun _ _ => none) (FS.mk [])
      "a.docx" "b.docx" "out.docx" "tmp1").fs.lookup "out.docx" =
        (FS.mk []).lookup "out.docx" ∧
     (apply_template_to_docx (fun _ => none) (fun _ _ => none) (FS.mk [])
      "a.docx" "b.docx" "out.docx" "tmp1").fs.lookup "tmp1" = none) := by
  refine ⟨rfl, by decide, rfl, ?_⟩
  exact C6_failure_atomicity (fun _ => none) (fun _ _ => none) (FS.mk [])
    "a.docx" "b.docx" "out.docx" "tmp1" rfl (by decide) TError.notFound rfl

/-- C8.  When either input path fails the `.docx` extension check, the call
reports `UnsupportedFormat` before any file is opened or created: no
temporary file exists, nothing was opened, and the file system — including
the destination — is exactly the pre-call state. -/
theorem C8_extension_gate (unzip : Bytes → Option Pkg) (emit : Pkg → Pkg → Option Bytes)
    (fs : FS) (src_path tpl_path dst_path tmp_out : String)
    (h : (strEnds (lowerStr src_path) ".docx" &&
      strEnds (lowerStr tpl_path) ".docx") = false) :
    apply_template_to_docx unzip emit fs src_path tpl_path dst_path tmp_out =
      ⟨some TError.unsupportedFormat, [], fs⟩ := by
  rw [apply_template_to_docx, h]
  simp

theorem C8_extension_gate_witness :
    (strEnds (lowerStr "a.doc") ".docx" && strEnds (lowerStr "b.docx") ".docx") = false ∧
    apply_template_to_docx (fun _ => none) (fun _ _ => none) (FS.mk [])
      "a.doc" "b.docx" "out.docx" "tmp1" =
      ⟨some TError.unsupportedFormat, [], FS.mk []⟩ := by
  refine ⟨by decide, ?_⟩
  exact C8_extension_gate (fun _ => none) (fun _ _ => none) (FS.mk [])
    "a.doc" "b.docx" "out.docx" "tmp1" (by decide)

/-! ## Content-type registry machinery (C7, C10) -/

theorem setA_find_ne : ∀ (l : List (String × String)) (k v k2 : String), (k == k2) = false →
    (setA l k v).find? (fun a => a.1 == k2) = l.find? (fun a => a.1 == k2) := by
  intro l
  induction l with
  | nil =>
    intro k v k2 h
    rw [setA]
    rw [@List.find?_cons_of_neg _ (fun a => a.1 == k2) (k, v) [] (by simp [h])]
  | cons a l ih =>
    intro k v k2 h
    obtain ⟨k0, v0⟩ := a
    rw [setA]
    by_cases h0 : (k0 == k) = true
    · rw [if_pos h0]
      have hk02 : (k0 == k2) = false := by
        have hk0 : k0 = k := beq_iff_eq.mp h0
        rw [hk0]
        exact h
      rw [@List.find?_cons_of_neg _ (fun a => a.1 == k2) (k0, v) l (by simp at hk02 ⊢; exact hk02),
        @List.find?_cons_of_neg _ (fun a => a.1 == k2) (k0, v0) l (by simp at hk02 ⊢; exact hk02)]
    · rw [if_neg h0]
      by_cases h2 : (k0 == k2) = true
      · rw [@List.find?_cons_of_pos _ (fun a => a.1 == k2) (k0, v0) _ h2,
          @List.find?_cons_of_pos _ (fun a => a.1 == k2) (k0, v0) l h2]
      · rw [@List.find?_cons_of_neg _ (fun a => a.1 == k2) (k0, v0) _ (by simpa using h2),
          @List.find?_cons_of_neg _ (fun a => a.1 == k2) (k0, v0) l (by simpa using h2)]
        exact ih k v k2 h

theorem setA_find_self : ∀ (l : List (String × String)) (k v : String),
    (setA l k v).find? (fun a => a.1 == k) = some (k, v) := by
  intro l
  induction l with
  | nil =>
    intro k v
    rw [setA]
    rw [@List.find?_cons_of_pos _ (fun a => a.1 == k) (k, v) [] (by simp)]
  | cons a l ih =>
    intro k v
    obtain ⟨k0, v0⟩ := a
    rw [setA]
    by_cases h0 : (k0 == k) = true
    · rw [if_pos h0]
      rw [@List.find?_cons_of_pos _ (fun a => a.1 == k) (k0, v) l h0]
      rw [beq_iff_eq.mp h0]
    · rw [if_neg h0]
      rw [@List.find?_cons_of_neg _ (fun a => a.1 == k) (k0, v0) _ (by simpa using h0)]
      exact ih k v

theorem get_setAttr_self (x : XML) (k v : String) : (x.setAttr k v).get k = some v := by
  rw [XML.setAttr, XML.get]
  simp only [XML.attrs]
  rw [setA_find_self]
  rfl

theorem get_setAttr_ne (x : XML) {k k2 : String} (v : String) (h : (k == k2) = false) :
    (x.setAttr k v).get k2 = x.get k2 := by
  rw [XML.setAttr, XML.get, XML.get]
  simp only [XML.attrs]
  rw [setA_find_ne _ k v k2 h]

theorem setA_setA : ∀ (l : List (String × String)) (k v1 v2 : String),
    setA (setA l k v1) k v2 = setA l k v2 := by
  intro l
  induction l with
  | nil =>
    intro k v1 v2
    rw [setA, setA, setA]
    simp
  | cons a l ih =>
    intro k v1 v2
    obtain ⟨k0, v0⟩ := a
    rw [setA]
    by_cases h0 : (k0 == k) = true
    · rw [if_pos h0, setA, if_pos h0, setA, if_pos h0]
    · rw [if_neg h0, setA, if_neg h0, setA, if_neg h0, ih]

theorem setAttr_setAttr (x : XML) (k v1 v2 : String) :
    (x.setAttr k v1).setAttr k v2 = x.setAttr k v2 := by
  simp only [XML.setAttr, XML.tag, XML.attrs, XML.children, setA_setA]

theorem matchesOverride_setAttrCT (pn ct : String) (c : XML) :
    matchesOverride pn (c.setAttr "ContentType" ct) = matchesOverride pn c := by
  rw [matchesOverride, matchesOverride, get_setAttr_ne c ct (by decide)]
  rfl

theorem matches_overrideElem_self (pn ct : String) :
    matchesOverride pn (overrideElem pn ct) = true := by
  simp [matchesOverride, overrideElem, XML.get, XML.attrs, XML.tag, List.find?]

theorem matches_overrideElem_ne {pn pn2 : String} (ct : String) (h : pn ≠ pn2) :
    matchesOverride pn (overrideElem pn2 ct) = false := by
  have hget : (overrideElem pn2 ct).get "PartName" = some pn2 := by
    simp [overrideElem, XML.get, XML.attrs, List.find?]
  rw [matchesOverride, hget]
  simp [h.symm]

theorem get_overrideElem_ct (pn ct : String) :
    (overrideElem pn ct).get "ContentType" = some ct := by
  simp [overrideElem, XML.get, XML.attrs, List.find?]

theorem sfo_none : ∀ (cs : List XML) (pn ct : String), setFirstOverride pn ct cs = none →
    ∀ c ∈ cs, matchesOverride pn c = false := by
  intro cs
  induction cs with
  | nil => intro pn ct _ c hc; simp at hc
  | cons c0 cs ih =>
    intro pn ct h c hc
    rw [setFirstOverride] at h
    by_cases hm : matchesOverride pn c0 = true
    · rw [if_pos hm] at h
      cases h
    · rw [if_neg hm] at h
      rcases List.mem_cons.mp hc with hEq | hmem
      · rw [hEq]
        simpa using hm
      · rw [Option.map_eq_none'] at h
        exact ih pn ct h c hmem

theorem sfo_none_of_all : ∀ (cs : List XML) (pn ct : String),
    (∀ c ∈ cs, matchesOverride pn c = false) → setFirstOverride pn ct cs = none := by
  intro cs
  induction cs with
  | nil => intro pn ct _; rfl
  | cons c0 cs ih =>
    intro pn ct h
    rw [setFirstOverride]
    rw [if_neg (by simp [h c0 (List.mem_cons_self _ _)])]
    rw [ih pn ct (fun c hc => h c (List.mem_cons_of_mem _ hc))]
    rfl

/-- Exact shape of a successful first-Override update. -/
theorem sfo_some : ∀ (cs : List XML) (pn ct : String) (cs2 : List XML),
    setFirstOverride pn ct cs = some cs2 →
    ∃ l1 c l2, cs = l1 ++ c :: l2 ∧ cs2 = l1 ++ (c.setAttr "ContentType" ct) :: l2 ∧
      matchesOverride pn c = true ∧ (∀ x ∈ l1, matchesOverride pn x = false) := by
  intro cs
  induction cs with
  | nil => intro pn ct cs2 h; cases h
  | cons c0 cs ih =>
    intro pn ct cs2 h
    rw [setFirstOverride] at h
    by_cases hm : matchesOverride pn c0 = true
    · rw [if_pos hm] at h
      cases h
      exact ⟨[], c0, cs, rfl, rfl, hm, by simp⟩
    · rw [if_neg hm] at h
      rw [Option.map_eq_some'] at h
      obtain ⟨cs2i, hi, rfl⟩ := h
      obtain ⟨l1, c, l2, he1, he2, hc, hall⟩ := ih pn ct cs2i hi
      refine ⟨c0 :: l1, c, l2, by rw [he1]; rfl, by rw [he2]; rfl, hc, ?_⟩
      intro x hx
      rcases List.mem_cons.mp hx with hEq | hmem
      · rw [hEq]
        simpa using hm
      · exact hall x hmem

theorem sfo_append_no_match (pn ct : String) : ∀ (l1 l2 : List XML),
    (∀ c ∈ l2, matchesOverride pn c = false) →
    setFirstOverride pn ct (l1 ++ l2) = (setFirstOverride pn ct l1).map (fun r => r ++ l2) := by
  intro l1
  induction l1 with
  | nil =>
    intro l2 h
    rw [List.nil_append, sfo_none_of_all l2 pn ct h]
    rfl
  | cons c cs ih =>
    intro l2 h
    rw [List.cons_append, setFirstOverride, setFirstOverride]
    by_cases hc : matchesOverride pn c = true
    · rw [if_pos hc, if_pos hc]
      rfl
    · rw [if_neg hc, if_neg hc, ih l2 h]
      cases h2 : setFirstOverride pn ct cs <;> simp [h2]

theorem ensure_override_children_some {root : XML} {pn ct : String} {cs2 : List XML}
    (h : setFirstOverride pn ct root.children = some cs2) :
    (ensure_override root pn ct).children = cs2 := by
  rw [ensure_override, h]
  rfl

theorem ensure_override_children_none {root : XML} {pn ct : String}
    (h : setFirstOverride pn ct root.children = none) :
    (ensure_override root pn ct).children = root.children ++ [overrideElem pn ct] := by
  rw [ensure_override, h]
  rfl

/-! Counting lemmas for ensure_override. -/

theorem countOverride_def (root : XML) (pn : String) :
    countOverride root pn = root.children.countP (fun c => matchesOverride pn c) := rfl

theorem countP_matches_sfo_some {cs cs2 : List XML} {pn ct : String}
    (h : setFirstOverride pn ct cs = some cs2) (pn2 : String) :
    cs2.countP (fun c => matchesOverride pn2 c) = cs.countP (fun c => matchesOverride pn2 c) := by
  obtain ⟨l1, c, l2, he1, he2, hc, hall⟩ := sfo_some cs pn ct cs2 h
  rw [he1, he2]
  rw [List.countP_append, List.countP_append, List.countP_cons, List.countP_cons]
  rw [matchesOverride_setAttrCT]

theorem countP_pos_sfo_some {cs cs2 : List XML} {pn ct : String}
    (h : setFirstOverride pn ct cs = some cs2) :
    1 ≤ cs.countP (fun c => matchesOverride pn c) := by
  obtain ⟨l1, c, l2, he1, he2, hc, hall⟩ := sfo_some cs pn ct cs2 h
  rw [he1, List.countP_append, List.countP_cons, hc]
  simp
  omega

theorem countOverride_ensure_self (root : XML) (pn ct : String)
    (h : countOverride root pn ≤ 1) :
    countOverride (ensure_override root pn ct) pn = 1 := by
  simp only [countOverride_def] at h ⊢
  cases hs : setFirstOverride pn ct root.children with
  | none =>
    rw [ensure_override_children_none hs]
    have hz : root.children.countP (fun c => matchesOverride pn c) = 0 := by
      rw [List.countP_eq_zero]
      intro c hc
      simp [sfo_none root.children pn ct hs c hc]
    rw [List.countP_append, hz, List.countP_cons, matches_overrideElem_self]
    rfl
  | some cs2 =>
    rw [ensure_override_children_some hs]
    have h1 := countP_matches_sfo_some hs pn
    have h2 := countP_pos_sfo_some hs
    omega

theorem countOverride_ensure_other (root : XML) {pn pn2 : String} (ct : String)
    (hne : pn ≠ pn2) :
    countOverride (ensure_override root pn2 ct) pn = countOverride root pn := by
  simp only [countOverride_def]
  cases hs : setFirstOverride pn2 ct root.children with
  | none =>
    rw [ensure_override_children_none hs]
    rw [List.countP_append, List.countP_cons, matches_overrideElem_ne ct hne]
    simp
  | some cs2 =>
    rw [ensure_override_children_some hs]
    exact countP_matches_sfo_some hs pn

theorem contentType_ensure_self (root : XML) (pn ct : String)
    (h : countOverride root pn ≤ 1) :
    ∀ c ∈ (ensure_override root pn ct).children, matchesOverride pn c = true →
      c.get "ContentType" = some ct := by
  rw [countOverride_def] at h
  cases hs : setFirstOverride pn ct root.children with
  | none =>
    rw [ensure_override_children_none hs]
    intro c hc hm
    rcases List.mem_append.mp hc with h1 | h1
    · rw [sfo_none root.children pn ct hs c h1] at hm
      cases hm
    · rw [List.mem_singleton] at h1
      rw [h1]
      exact get_overrideElem_ct pn ct
  | some cs2 =>
    rw [ensure_override_children_some hs]
    obtain ⟨l1, c0, l2, he1, he2, hc0, hall⟩ := sfo_some root.children pn ct cs2 hs
    intro c hc hm
    rw [he2] at hc
    rcases List.mem_append.mp hc with h1 | h1
    · rw [hall c h1] at hm
      cases hm
    · rcases List.mem_cons.mp h1 with hEq | h2
      · rw [hEq]
        exact get_setAttr_self c0 "ContentType" ct
      · exfalso
        have hz : l2.countP (fun c => matchesOverride pn c) = 0 := by
          rw [he1, List.countP_append, List.countP_cons, hc0] at h
          simp at h
          omega
        rw [List.countP_eq_zero] at hz
        exact absurd hm (by simp [hz c h2])

theorem content_preserved_other (root : XML) {pn pn2 : String} (ct : String)
    (hne : pn ≠ pn2) :
    ∀ c ∈ (ensure_override root pn2 ct).children, matchesOverride pn c = true →
      c ∈ root.children := by
  cases hs : setFirstOverride pn2 ct root.children with
  | none =>
    rw [ensure_override_children_none hs]
    intro c hc hm
    rcases List.mem_append.mp hc with h1 | h1
    · exact h1
    · rw [List.mem_singleton] at h1
      rw [h1, matches_overrideElem_ne ct hne] at hm
      cases hm
  | some cs2 =>
    rw [ensure_override_children_some hs]
    obtain ⟨l1, c0, l2, he1, he2, hc0, hall⟩ := sfo_some root.children pn2 ct cs2 hs
    intro c hc hm
    rw [he2] at hc
    rw [he1]
    rcases List.mem_append.mp hc with h1 | h1
    · exact List.mem_append_left _ h1
    · rcases List.mem_cons.mp h1 with hEq | h2
      · exfalso
        rw [hEq, matchesOverride_setAttrCT] at hm
        have hp2 : (c0.get "PartName" == some pn2) = true := by
          have h4 := hc0
          rw [matchesOverride] at h4
          simp only [Bool.and_eq_true] at h4
          exact h4.2
        have hp : (c0.get "PartName" == some pn) = true := by
          rw [matchesOverride] at hm
          simp only [Bool.and_eq_true] at hm
          exact hm.2
        rw [beq_iff_eq] at hp hp2
        rw [hp] at hp2
        injection hp2 with h3
        exact hne h3
      · exact List.mem_append_right _ (List.mem_cons_of_mem _ h2)

/-! ## Registry preservation structure (C10) -/

theorem ctPres_refl (a : XML) : ctPres a a := ⟨rfl, rfl, Or.inl rfl⟩

theorem forall2_ctPres_refl : ∀ l : List XML, List.Forall₂ ctPres l l := by
  intro l
  induction l with
  | nil => exact List.Forall₂.nil
  | cons a l ih => exact List.Forall₂.cons (ctPres_refl a) ih

theorem ctPres_setAttrCT (a : XML) (v : String) : ctPres a (a.setAttr "ContentType" v) :=
  ⟨rfl, get_setAttr_ne a v (by decide), Or.inr ⟨v, rfl⟩⟩

theorem ctPres_trans {a b c : XML} (h1 : ctPres a b) (h2 : ctPres b c) : ctPres a c := by
  obtain ⟨t1, p1, e1⟩ := h1
  obtain ⟨t2, p2, e2⟩ := h2
  refine ⟨t2.trans t1, p2.trans p1, ?_⟩
  rcases e1 with rfl | ⟨v, rfl⟩
  · exact e2
  · rcases e2 with rfl | ⟨w, hw⟩
    · exact Or.inr ⟨v, rfl⟩
    · exact Or.inr ⟨w, by rw [hw, setAttr_setAttr]⟩

theorem forall2_ctPres_trans : ∀ {l1 l2 l3 : List XML},
    List.Forall₂ ctPres l1 l2 → List.Forall₂ ctPres l2 l3 → List.Forall₂ ctPres l1 l3 := by
  intro l1 l2 l3 h1
  induction h1 generalizing l3 with
  | nil =>
    intro h2
    cases h2
    exact List.Forall₂.nil
  | cons hab h1 ih =>
    intro h2
    cases h2 with
    | cons hbc h2 => exact List.Forall₂.cons (ctPres_trans hab hbc) (ih h2)

theorem forall2_ctPres_append : ∀ {l1 l2 l3 l4 : List XML},
    List.Forall₂ ctPres l1 l3 → List.Forall₂ ctPres l2 l4 →
    List.Forall₂ ctPres (l1 ++ l2) (l3 ++ l4) := by
  intro l1 l2 l3 l4 h1 h2
  induction h1 with
  | nil => exact h2
  | cons hab h ih => exact List.Forall₂.cons hab ih

theorem sfo_forall2 {pn ct : String} {cs cs2 : List XML}
    (h : setFirstOverride pn ct cs = some cs2) : List.Forall₂ ctPres cs cs2 := by
  obtain ⟨l1, c, l2, he1, he2, hc, hall⟩ := sfo_some cs pn ct cs2 h
  rw [he1, he2]
  exact forall2_ctPres_append (forall2_ctPres_refl l1)
    (List.Forall₂.cons (ctPres_setAttrCT c ct) (forall2_ctPres_refl l2))

/-- Structure of one `ensure_override` application. -/
theorem ensure_structure (root : XML) (pn ct : String) :
    ∃ upd extra, (ensure_override root pn ct).children = upd ++ extra ∧
      List.Forall₂ ctPres root.children upd ∧
      ∀ e ∈ extra, e = overrideElem pn ct := by
  cases hs : setFirstOverride pn ct root.children with
  | some cs2 =>
    refine ⟨cs2, [], by rw [ensure_override_children_some hs, List.append_nil],
      sfo_forall2 hs, by simp⟩
  | none =>
    refine ⟨root.children, [overrideElem pn ct], ensure_override_children_none hs,
      forall2_ctPres_refl _, ?_⟩
    intro e he
    rw [List.mem_singleton] at he
    exact he

theorem hdr_pn_ne_ftr_pn : "/word/header1.xml" ≠ "/word/footer1.xml" := by decide

/-- Structure of the whole registry edit. -/
theorem newCtOf_structure (ct? : Option XML) (hasH hasF : Bool) :
    ∃ upd extra, (newCtOf ct? hasH hasF).children = upd ++ extra ∧
      List.Forall₂ ctPres (ct?.getD (.elem typesTag [] [])).children upd ∧
      ∀ e ∈ extra, e = overrideElem "/word/header1.xml" headerContentType ∨
        e = overrideElem "/word/footer1.xml" footerContentType := by
  have hstep1 : ∃ upd extra,
      (if hasH then ensure_override (ct?.getD (.elem typesTag [] []))
        "/word/header1.xml" headerContentType else (ct?.getD (.elem typesTag [] []))).children =
        upd ++ extra ∧
      List.Forall₂ ctPres (ct?.getD (.elem typesTag [] [])).children upd ∧
      ∀ e ∈ extra, e = overrideElem "/word/header1.xml" headerContentType := by
    cases hasH with
    | false =>
      refine ⟨(ct?.getD (.elem typesTag [] [])).children, [], by simp,
        forall2_ctPres_refl _, by simp⟩
    | true =>
      simpa using ensure_structure (ct?.getD (.elem typesTag [] []))
        "/word/header1.xml" headerContentType
  obtain ⟨upd1, extra1, he1, hf1, hx1⟩ := hstep1
  cases hasF with
  | false =>
    refine ⟨upd1, extra1, ?_, hf1, fun e he => Or.inl (hx1 e he)⟩
    rw [newCtOf]
    simpa using he1
  | true =>
    have hnm : ∀ c ∈ extra1, matchesOverride "/word/footer1.xml" c = false := by
      intro c hc
      rw [hx1 c hc]
      exact matches_overrideElem_ne headerContentType (Ne.symm hdr_pn_ne_ftr_pn)
    have hchil : (newCtOf ct? hasH true).children =
        (ensure_override (if hasH then ensure_override (ct?.getD (.elem typesTag [] []))
          "/word/header1.xml" headerContentType else (ct?.getD (.elem typesTag [] [])))
          "/word/footer1.xml" footerContentType).children := by
      rw [newCtOf, if_pos rfl]
    rw [hchil]
    cases hs : setFirstOverride "/word/footer1.xml" footerContentType
        (if hasH then ensure_override (ct?.getD (.elem typesTag [] []))
          "/word/header1.xml" headerContentType else (ct?.getD (.elem typesTag [] []))).children
      with
    | some u2 =>
      rw [ensure_override_children_some hs]
      rw [he1, sfo_append_no_match _ _ upd1 extra1 hnm] at hs
      cases hs2 : setFirstOverride "/word/footer1.xml" footerContentType upd1 with
      | none =>
        rw [hs2] at hs
        cases hs
      | some u1 =>
        rw [hs2] at hs
        simp only [Option.map_some'] at hs
        cases hs
        refine ⟨u1, extra1, rfl, forall2_ctPres_trans hf1 (sfo_forall2 hs2),
          fun e he => Or.inl (hx1 e he)⟩
    | none =>
      rw [ensure_override_children_none hs]
      rw [he1, List.append_assoc]
      refine ⟨upd1, extra1 ++ [overrideElem "/word/footer1.xml" footerContentType],
        rfl, hf1, ?_⟩
      intro e he
      rcases List.mem_append.mp he with h1 | h1
      · exact Or.inl (hx1 e h1)
      · rw [List.mem_singleton] at h1
        exact Or.inr h1

/-- C10.  Every Override of the source content-type registry survives into
the output with its tag and `PartName` unchanged — at most its
`ContentType` is updated in place — and the only additions are the
canonical header/footer Overrides appended at the end. -/
theorem C10_registry_preservation (src tpl : Pkg) (parse : Bytes → XML) :
    ∃ upd extra, (transformOf src tpl parse).ct.children = upd ++ extra ∧
      List.Forall₂ ctPres
        (((bufferPhase src).ct?.map parse).getD (.elem typesTag [] [])).children upd ∧
      ∀ e ∈ extra, e = overrideElem "/word/header1.xml" headerContentType ∨
        e = overrideElem "/word/footer1.xml" footerContentType := by
  rw [transformOf_ct]
  exact newCtOf_structure ((bufferPhase src).ct?.map parse)
    (pick_first_part (collect_headers tpl)).isSome
    (pick_first_part (collect_footers tpl)).isSome

/-! ## Per-kind installation (C7) -/

theorem hidOf_false (r? : Option XML) : hidOf r? false = none := rfl

theorem fidOf_false (r? : Option XML) (hasH : Bool) : fidOf r? hasH false = none := rfl

theorem get_relationshipElem_type (i ty tgt : String) :
    (relationshipElem i ty tgt).get "Type" = some ty := by
  have h : ("Id" == "Type") = false := by decide
  simp [relationshipElem, XML.get, XML.attrs, List.find?, h]

theorem mem_newRels_children {r? : Option XML} {hasH hasF : Bool} {c : XML}
    (h : c ∈ (newRelsOf r? hasH hasF).children) :
    (c ∈ (rels0Of r?).children ∧ isRemovedRel c = false) ∨
    (∃ i, hidOf r? hasH = some i ∧ c = relationshipElem i headerRelType "header1.xml") ∨
    (∃ i, fidOf r? hasH hasF = some i ∧
      c = relationshipElem i footerRelType "footer1.xml") := by
  rw [newRelsOf] at h
  simp only [XML.children] at h
  rcases List.mem_append.mp h with h1 | h1
  · rcases List.mem_append.mp h1 with h2 | h2
    · simp only [keptRels] at h2
      have hm := List.mem_filter.mp h2
      exact Or.inl ⟨hm.1, by simpa using hm.2⟩
    · cases hh : hidOf r? hasH with
      | none => rw [hh] at h2; simp at h2
      | some i =>
        rw [hh] at h2
        rw [List.mem_singleton] at h2
        exact Or.inr (Or.inl ⟨i, rfl, h2⟩)
  · cases hf : fidOf r? hasH hasF with
    | none => rw [hf] at h1; simp at h1
    | some i =>
      rw [hf] at h1
      rw [List.mem_singleton] at h1
      exact Or.inr (Or.inr ⟨i, rfl, h1⟩)

theorem rels_no_header (r? : Option XML) (hasF : Bool) :
    ∀ rel ∈ (newRelsOf r? false hasF).children,
      strEnds rel.tag "Relationship" = true →
        strEnds (rel.getAttrD "Type" "") "/header" = false := by
  intro rel hrel htag
  rcases mem_newRels_children hrel with ⟨_, hk⟩ | ⟨i, hi, _⟩ | ⟨i, _, hEq⟩
  · simp only [isRemovedRel] at hk
    rw [htag, Bool.true_and] at hk
    cases hh : strEnds (rel.getAttrD "Type" "") "/header" with
    | false => rfl
    | true => rw [hh] at hk; simp at hk
  · rw [hidOf_false] at hi
    cases hi
  · rw [hEq, XML.getAttrD, get_relationshipElem_type, Option.getD_some]
    decide

theorem rels_no_footer (r? : Option XML) (hasH : Bool) :
    ∀ rel ∈ (newRelsOf r? hasH false).children,
      strEnds rel.tag "Relationship" = true →
        strEnds (rel.getAttrD "Type" "") "/footer" = false := by
  intro rel hrel htag
  rcases mem_newRels_children hrel with ⟨_, hk⟩ | ⟨i, _, hEq⟩ | ⟨i, hi, _⟩
  · simp only [isRemovedRel] at hk
    rw [htag, Bool.true_and] at hk
    cases hh : strEnds (rel.getAttrD "Type" "") "/footer" with
    | false => rfl
    | true => rw [hh] at hk; simp at hk
  · rw [hEq, XML.getAttrD, get_relationshipElem_type, Option.getD_some]
    decide
  · rw [fidOf_false] at hi
    cases hi

theorem c7_absent_header (d? r? ct? : Option XML) (hasF : Bool) :
    (∀ rel ∈ (newRelsOf r? false hasF).children,
      strEnds rel.tag "Relationship" = true →
        strEnds (rel.getAttrD "Type" "") "/header" = false) ∧
    (∀ blk ∈ docBlocks (updateDoc (hidOf r? false) (fidOf r? false hasF) (d?.getD defaultDoc)),
      headerRefsOf blk = []) ∧
    countOverride (newCtOf ct? false hasF) "/word/header1.xml" =
      countOverride (ct?.getD (.elem typesTag [] [])) "/word/header1.xml" := by
  refine ⟨rels_no_header r? hasF, ?_, ?_⟩
  · intro blk hblk
    have h := (c1_blocks d? r? false hasF blk hblk).1
    rw [hidOf_false] at h
    exact h
  · cases hasF with
    | false =>
      have he : newCtOf ct? false false = ct?.getD (.elem typesTag [] []) := rfl
      rw [he]
    | true =>
      have he : newCtOf ct? false true =
          ensure_override (ct?.getD (.elem typesTag [] []))
            "/word/footer1.xml" footerContentType := rfl
      rw [he]
      exact countOverride_ensure_other _ footerContentType hdr_pn_ne_ftr_pn

theorem c7_absent_footer (d? r? ct? : Option XML) (hasH : Bool) :
    (∀ rel ∈ (newRelsOf r? hasH false).children,
      strEnds rel.tag "Relationship" = true →
        strEnds (rel.getAttrD "Type" "") "/footer" = false) ∧
    (∀ blk ∈ docBlocks (updateDoc (hidOf r? hasH) (fidOf r? hasH false) (d?.getD defaultDoc)),
      footerRefsOf blk = []) ∧
    countOverride (newCtOf ct? hasH false) "/word/footer1.xml" =
      countOverride (ct?.getD (.elem typesTag [] [])) "/word/footer1.xml" := by
  refine ⟨rels_no_footer r? hasH, ?_, ?_⟩
  · intro blk hblk
    have h := (c1_blocks d? r? hasH false blk hblk).2.1
    rw [fidOf_false] at h
    exact h
  · cases hasH with
    | false =>
      have he : newCtOf ct? false false = ct?.getD (.elem typesTag [] []) := rfl
      rw [he]
    | true =>
      have he : newCtOf ct? true false =
          ensure_override (ct?.getD (.elem typesTag [] []))
            "/word/header1.xml" headerContentType := rfl
      rw [he]
      exact countOverride_ensure_other _ headerContentType (Ne.symm hdr_pn_ne_ftr_pn)

theorem c7_installed_header (ct? : Option XML) (hasF : Bool)
    (hH : countOverride (ct?.getD (.elem typesTag [] [])) "/word/header1.xml" ≤ 1) :
    countOverride (newCtOf ct? true hasF) "/word/header1.xml" = 1 ∧
    ∀ c ∈ (newCtOf ct? true hasF).children,
      matchesOverride "/word/header1.xml" c = true →
        c.get "ContentType" = some headerContentType := by
  cases hasF with
  | false =>
    have he : newCtOf ct? true false =
        ensure_override (ct?.getD (.elem typesTag [] []))
          "/word/header1.xml" headerContentType := rfl
    rw [he]
    exact ⟨countOverride_ensure_self _ _ _ hH, contentType_ensure_self _ _ _ hH⟩
  | true =>
    have he : newCtOf ct? true true =
        ensure_override (ensure_override (ct?.getD (.elem typesTag [] []))
          "/word/header1.xml" headerContentType)
          "/word/footer1.xml" footerContentType := rfl
    rw [he]
    constructor
    · rw [countOverride_ensure_other _ footerContentType hdr_pn_ne_ftr_pn]
      exact countOverride_ensure_self _ _ _ hH
    · intro c hc hm
      have hc2 := content_preserved_other _ footerContentType hdr_pn_ne_ftr_pn c hc hm
      exact contentType_ensure_self _ _ _ hH c hc2 hm

theorem c7_installed_footer (ct? : Option XML) (hasH : Bool)
    (hF : countOverride (ct?.getD (.elem typesTag [] [])) "/word/footer1.xml" ≤ 1) :
    countOverride (newCtOf ct? hasH true) "/word/footer1.xml" = 1 ∧
    ∀ c ∈ (newCtOf ct? hasH true).children,
      matchesOverride "/word/footer1.xml" c = true →
        c.get "ContentType" = some footerContentType := by
  cases hasH with
  | false =>
    have he : newCtOf ct? false true =
        ensure_override (ct?.getD (.elem typesTag [] []))
          "/word/footer1.xml" footerContentType := rfl
    rw [he]
    exact ⟨countOverride_ensure_self _ _ _ hF, contentType_ensure_self _ _ _ hF⟩
  | true =>
    have he : newCtOf ct? true true =
        ensure_override (ensure_override (ct?.getD (.elem typesTag [] []))
          "/word/header1.xml" headerContentType)
          "/word/footer1.xml" footerContentType := rfl
    rw [he]
    have hF2 : countOverride (ensure_override (ct?.getD (.elem typesTag [] []))
        "/word/header1.xml" headerContentType) "/word/footer1.xml" ≤ 1 := by
      rw [countOverride_ensure_other _ headerContentType (Ne.symm hdr_pn_ne_ftr_pn)]
      exact hF
    exact ⟨countOverride_ensure_self _ _ _ hF2, contentType_ensure_self _ _ _ hF2⟩

theorem output_no_header1 {src tpl : Pkg} {parse : Bytes → XML} {ser : XML → Bytes}
    (hp : pick_first_part (collect_headers tpl) = none) :
    ∀ e ∈ outputEntries src tpl parse ser, e.1 = "word/header1.xml" → False := by
  intro e he hn
  rcases mem_outputEntries_cases he with h | h | h | h | h | h | h
  · have := (stage_out_names src (namelist src) e h).2.2.1
    rw [hn, hfp_header1] at this
    cases this
  · rw [hn] at h
    exact absurd h (by decide)
  · rw [headerWrites_nil hp] at h
    simp at h
  · rcases mem_footerWrites h with ⟨m2, hp2, hEq⟩ | hr
    · rw [hEq] at hn
      have hn2 : "word/footer1.xml" = "word/header1.xml" := hn
      exact absurd hn2 (by decide)
    · rw [hn] at hr
      exact absurd hr (by decide)
  · rw [hn] at h
    exact absurd h (by decide)
  · rw [hn] at h
    exact absurd h (by decide)
  · rw [hn] at h
    exact absurd h (by decide)

theorem output_no_footer1 {src tpl : Pkg} {parse : Bytes → XML} {ser : XML → Bytes}
    (hp : pick_first_part (collect_footers tpl) = none) :
    ∀ e ∈ outputEntries src tpl parse ser, e.1 = "word/footer1.xml" → False := by
  intro e he hn
  rcases mem_outputEntries_cases he with h | h | h | h | h | h | h
  · have := (stage_out_names src (namelist src) e h).2.2.1
    rw [hn, hfp_footer1] at this
    cases this
  · rw [hn] at h
    exact absurd h (by decide)
  · rcases mem_headerWrites h with ⟨m2, hp2, hEq⟩ | hr
    · rw [hEq] at hn
      have hn2 : "word/header1.xml" = "word/footer1.xml" := hn
      exact absurd hn2 (by decide)
    · rw [hn] at hr
      exact absurd hr (by decide)
  · rw [footerWrites_nil hp] at h
    simp at h
  · rw [hn] at h
    exact absurd h (by decide)
  · rw [hn] at h
    exact absurd h (by decide)
  · rw [hn] at h
    exact absurd h (by decide)

/-- C7.  Per kind (header, footer): the canonical part `word/header1.xml`
(resp. `word/footer1.xml`) appears in the output iff the template offers a
part of that kind; when installed (and the source registry carried at most
one Override per canonical part name) the output registry has exactly one
Override for that part name with the correct WordprocessingML content
type; when not installed, no canonical part entry, no relationship of
that kind, no section reference of that kind, and no new Override for it
appears. -/
theorem C7_per_kind_installation (src tpl : Pkg) (parse : Bytes → XML) (ser : XML → Bytes)
    (hH : countOverride (((bufferPhase src).ct?.map parse).getD (.elem typesTag [] []))
      "/word/header1.xml" ≤ 1)
    (hF : countOverride (((bufferPhase src).ct?.map parse).getD (.elem typesTag [] []))
      "/word/footer1.xml" ≤ 1) :
    ((∃ b, ("word/header1.xml", b) ∈ outputEntries src tpl parse ser) ↔
      collect_headers tpl ≠ []) ∧
    ((∃ b, ("word/footer1.xml", b) ∈ outputEntries src tpl parse ser) ↔
      collect_footers tpl ≠ []) ∧
    (collect_headers tpl ≠ [] →
      countOverride (transformOf src tpl parse).ct "/word/header1.xml" = 1 ∧
      ∀ c ∈ (transformOf src tpl parse).ct.children,
        matchesOverride "/word/header1.xml" c = true →
          c.get "ContentType" = some headerContentType) ∧
    (collect_footers tpl ≠ [] →
      countOverride (transformOf src tpl parse).ct "/word/footer1.xml" = 1 ∧
      ∀ c ∈ (transformOf src tpl parse).ct.children,
        matchesOverride "/word/footer1.xml" c = true →
          c.get "ContentType" = some footerContentType) ∧
    (collect_headers tpl = [] →
      (∀ rel ∈ (transformOf src tpl parse).rels.children,
        strEnds rel.tag "Relationship" = true →
          strEnds (rel.getAttrD "Type" "") "/header" = false) ∧
      (∀ blk ∈ docBlocks (transformOf src tpl parse).doc, headerRefsOf blk = []) ∧
      countOverride (transformOf src tpl parse).ct "/word/header1.xml" =
        countOverride (((bufferPhase src).ct?.map parse).getD (.elem typesTag [] []))
          "/word/header1.xml") ∧
    (collect_footers tpl = [] →
      (∀ rel ∈ (transformOf src tpl parse).rels.children,
        strEnds rel.tag "Relationship" = true →
          strEnds (rel.getAttrD "Type" "") "/footer" = false) ∧
      (∀ blk ∈ docBlocks (transformOf src tpl parse).doc, footerRefsOf blk = []) ∧
      countOverride (transformOf src tpl parse).ct "/word/footer1.xml" =
        countOverride (((bufferPhase src).ct?.map parse).getD (.elem typesTag [] []))
          "/word/footer1.xml") := by
  refine ⟨?_, ?_, ?_, ?_, ?_, ?_⟩
  · constructor
    · rintro ⟨b, hb⟩ hnil
      have hp : pick_first_part (collect_headers tpl) = none := by rw [hnil]; rfl
      exact output_no_header1 hp _ hb rfl
    · intro hne
      obtain ⟨m, hp⟩ := pick_of_ne_nil hne
      exact ⟨zreadD tpl m, header1_mem_output src tpl parse ser hp⟩
  · constructor
    · rintro ⟨b, hb⟩ hnil
      have hp : pick_first_part (collect_footers tpl) = none := by rw [hnil]; rfl
      exact output_no_footer1 hp _ hb rfl
    · intro hne
      obtain ⟨m, hp⟩ := pick_of_ne_nil hne
      exact ⟨zreadD tpl m, footer1_mem_output src tpl parse ser hp⟩
  · intro hne
    obtain ⟨m, hp⟩ := pick_of_ne_nil hne
    have hb : (pick_first_part (collect_headers tpl)).isSome = true := by rw [hp]; rfl
    rw [transformOf_ct, hb]
    exact c7_installed_header _ _ hH
  · intro hne
    obtain ⟨m, hp⟩ := pick_of_ne_nil hne
    have hb : (pick_first_part (collect_footers tpl)).isSome = true := by rw [hp]; rfl
    rw [transformOf_ct, hb]
    exact c7_installed_footer _ _ hF
  · intro hnil
    have hb : (pick_first_part (collect_headers tpl)).isSome = false := by rw [hnil]; rfl
    refine ⟨?_, ?_, ?_⟩
    · rw [transformOf_rels, hb]
      exact rels_no_header _ _
    · rw [transformOf_doc, hb]
      exact (c7_absent_header ((bufferPhase src).doc?.map parse)
        ((bufferPhase src).rels?.map parse) ((bufferPhase src).ct?.map parse) _).2.1
    · rw [transformOf_ct, hb]
      exact (c7_absent_header ((bufferPhase src).doc?.map parse)
        ((bufferPhase src).rels?.map parse) ((bufferPhase src).ct?.map parse) _).2.2
  · intro hnil
    have hb : (pick_first_part (collect_footers tpl)).isSome = false := by rw [hnil]; rfl
    refine ⟨?_, ?_, ?_⟩
    · rw [transformOf_rels, hb]
      exact rels_no_footer _ _
    · rw [transformOf_doc, hb]
      exact (c7_absent_footer ((bufferPhase src).doc?.map parse)
        ((bufferPhase src).rels?.map parse) ((bufferPhase src).ct?.map parse) _).2.1
    · rw [transformOf_ct, hb]
      exact (c7_absent_footer ((bufferPhase src).doc?.map parse)
        ((bufferPhase src).rels?.map parse) ((bufferPhase src).ct?.map parse) _).2.2

theorem C7_per_kind_installation_witness :
    countOverride (((bufferPhase (Pkg.mk [])).ct?.map (fun _ => defaultDoc)).getD
      (.elem typesTag [] [])) "/word/header1.xml" ≤ 1 ∧
    countOverride (((bufferPhase (Pkg.mk [])).ct?.map (fun _ => defaultDoc)).getD
      (.elem typesTag [] [])) "/word/footer1.xml" ≤ 1 ∧
    ((∃ b, ("word/header1.xml", b) ∈ outputEntries (Pkg.mk [])
        (Pkg.mk [("word/header1.xml", [1])]) (fun _ => defaultDoc) (fun _ => [])) ↔
      collect_headers (Pkg.mk [("word/header1.xml", [1])]) ≠ []) := by
  refine ⟨by decide, by decide, ?_⟩
  exact (C7_per_kind_installation (Pkg.mk []) (Pkg.mk [("word/header1.xml", [1])])
    (fun _ => defaultDoc) (fun _ => []) (by decide) (by decide)).1

end Docx
